/-
  Verification of the qprop.c propeller-analysis library against its design
  specification.

  The C source (qprop.c) is shallowly embedded over the real numbers:
  C doubles become ℝ, the math.h functions become their Mathlib
  counterparts (sqrt, sin, cos, atan, acos, exp; M_PI becomes Real.pi),
  parallel C arrays of equal length become lists of records, and the
  early-return error path of qprop() is made observable as an `Option ℕ`
  carrying the index of the failing blade element (the C code prints the
  index and returns the partial record).  NaN propagation of IEEE doubles
  is not representable in ℝ; Mathlib's total functions (arccos clamped on
  [-1,1], division by zero yielding 0) stand in for the C singularities
  that the specification itself lists as unguarded numerical edge cases.
-/
import Mathlib

noncomputable section

/-- Linear interpolation between two points (x1,y1)-(x2,y2), from interp1 in
qprop.c: the degenerate segment x2 == x1 returns y1. -/
def interp1 (x1 y1 x2 y2 xq : ℝ) : ℝ :=
  if x2 = x1 then y1 else y1 + (xq - x1) * (y2 - y1) / (x2 - x1)

/-- One sample of an airfoil polar.  The C Polar struct keeps three parallel
arrays alpha, CL, CD of equal length; one PolarPt is one index into them. -/
structure PolarPt where
  alpha : ℝ
  CL : ℝ
  CD : ℝ

/-- Default PolarPt used when reading the head or last element of a list of
samples; the C code never takes these defaults because a Polar has size ≥ 1. -/
def dPt : PolarPt := ⟨0, 0, 0⟩

/-- Airfoil polar at a fixed Reynolds number (C struct Polar). -/
structure Polar where
  Re : ℝ
  pts : List PolarPt

/-- Scan for the right-closed bracket alpha[i-1] < alpha ≤ alpha[i], the
for-loop of interpolate_polar in qprop.c: the first bracketing pair
interpolates CL and CD and breaks; if no pair brackets, the query keeps its
initialized value (0, 0). -/
def bracketScan (alpha : ℝ) : List PolarPt → ℝ × ℝ
  | p1 :: p2 :: rest =>
      if p1.alpha < alpha ∧ alpha ≤ p2.alpha then
        (interp1 p1.alpha p1.CL p2.alpha p2.CL alpha,
         interp1 p1.alpha p1.CD p2.alpha p2.CD alpha)
      else bracketScan alpha (p2 :: rest)
  | _ => (0, 0)

/-- interpolate_polar from qprop.c: below the minimum angle of attack the CL
is clamped and the CD is interpolated toward the anchor (-pi/2, 2.0); above
the maximum angle symmetrically toward (+pi/2, 2.0); otherwise the bracket
scan interpolates both coefficients. -/
def interpolate_polar (cp : Polar) (alpha : ℝ) : PolarPt :=
  let fst := cp.pts.headD dPt
  let lst := cp.pts.getLastD dPt
  if alpha ≤ fst.alpha then
    ⟨alpha, fst.CL, interp1 (-(Real.pi/2)) 2 fst.alpha fst.CD alpha⟩
  else if lst.alpha < alpha then
    ⟨alpha, lst.CL, interp1 lst.alpha lst.CD (Real.pi/2) 2 alpha⟩
  else
    ⟨alpha, (bracketScan alpha cp.pts).1, (bracketScan alpha cp.pts).2⟩

/-- Airfoil as a sequence of polars (C struct Airfoil). -/
structure Airfoil where
  polars : List Polar

/-- Default Polar for headD/getLastD on the polar list; never taken by the C
code since an Airfoil holds at least one Polar. -/
def dPol : Polar := ⟨0, []⟩

/-- Scan for the pair of polars with Re[i-1] < Re ≤ Re[i], the for-loop of
interpolate_airfoil_polars in qprop.c. -/
def reBracketScan (Re : ℝ) : List Polar → Option (Polar × Polar)
  | p1 :: p2 :: rest =>
      if p1.Re < Re ∧ Re ≤ p2.Re then some (p1, p2)
      else reBracketScan Re (p2 :: rest)
  | _ => none

/-- Choice of the lower and upper polar in interpolate_airfoil_polars: at or
below the lowest tabulated Re both collapse to the lowest polar, above the
highest both collapse to the highest, otherwise the scan brackets; if the
scan finds nothing the indices keep their initial values 0 and size-1. -/
def reBracket (af : Airfoil) (Re : ℝ) : Polar × Polar :=
  if Re ≤ (af.polars.headD dPol).Re then
    (af.polars.headD dPol, af.polars.headD dPol)
  else if (af.polars.getLastD dPol).Re < Re then
    (af.polars.getLastD dPol, af.polars.getLastD dPol)
  else
    match reBracketScan Re af.polars with
    | some pp => pp
    | none => (af.polars.headD dPol, af.polars.getLastD dPol)

/-- Prandtl-Glauert compressibility correction applied to CL at the end of
interpolate_airfoil_polars: only for 0 < Mach < 0.99; outside that range the
CL is returned unchanged and no error is raised. -/
def machCorrect (Mach CL : ℝ) : ℝ :=
  if 0 < Mach ∧ Mach < 0.99 then CL / Real.sqrt (1 - Mach * Mach) else CL

/-- interpolate_airfoil_polars from qprop.c: bracket the query Re between two
polars, evaluate interpolate_polar on each at the same alpha, interpolate CL
and CD across Re, then apply the compressibility correction to CL. -/
def interpolate_airfoil_polars (af : Airfoil) (alpha Re Mach : ℝ) : PolarPt :=
  let pl := (reBracket af Re).1
  let pu := (reBracket af Re).2
  let lower := interpolate_polar pl alpha
  let upper := interpolate_polar pu alpha
  ⟨alpha,
   machCorrect Mach (interp1 pl.Re lower.CL pu.Re upper.CL Re),
   interp1 pl.Re lower.CD pu.Re upper.CD Re⟩

/-- Blade element (C struct Element): chord, twist, radius, width and the
local airfoil. -/
structure Element where
  c : ℝ
  beta : ℝ
  r : ℝ
  dr : ℝ
  airfoil : Airfoil

/-- Rotor geometry (C struct Rotor): diameter, blade count and the list of
blade elements (nelems is the list length). -/
structure Rotor where
  D : ℝ
  B : ℤ
  elements : List Element

/-- Output record of one call to the residual function (C struct Residual). -/
structure Residual where
  residual : ℝ
  W : ℝ
  phi : ℝ
  Gamma : ℝ
  lambdaw : ℝ
  va : ℝ
  vt : ℝ
  Cn : ℝ
  Ct : ℝ

/-- Mach number handed to interpolate_airfoil_polars by residual() in
qprop.c: sqrt(W/a) when the speed of sound a is positive, otherwise 0. -/
def machOf (W a : ℝ) : ℝ :=
  if 0 < a then Real.sqrt (W / a) else 0

/-- residual() from qprop.c: velocity triangle at trial inflow angle psi,
airfoil coefficient query, Prandtl tip loss, and the circulation-balance
residual together with its by-products. -/
def residualF (psi Ua Ut R : ℝ) (B : ℤ) (e : Element) (rho mu a : ℝ) : Residual :=
  let U := Real.sqrt (Ua * Ua + Ut * Ut)
  let Wa := 0.5 * Ua + 0.5 * U * Real.sin psi
  let Wt := 0.5 * Ut + 0.5 * U * Real.cos psi
  let va := Wa - Ua
  let vt := Ut - Wt
  let W := Real.sqrt (Wa * Wa + Wt * Wt)
  let Re := rho * W * e.c / mu
  let phi := Real.arctan (Wa / Wt)
  let alpha := e.beta - phi
  let Mach := machOf W a
  let op := interpolate_airfoil_polars e.airfoil alpha Re Mach
  let lambdaw := (e.r / R) * (Wa / Wt)
  let f := (1 - e.r / R) * 0.5 * (B : ℝ) / lambdaw
  let F := Real.arccos (Real.exp (-f)) * 2 / Real.pi
  let Gamma := vt * (4 * Real.pi * e.r / (B : ℝ)) * F *
    Real.sqrt (1 + (4 * lambdaw * R / (Real.pi * (B : ℝ) * e.r)) ^ 2)
  { residual := Gamma - 0.5 * W * e.c * op.CL
    W := W
    phi := phi
    Gamma := Gamma
    lambdaw := lambdaw
    va := va
    vt := vt
    Cn := op.CL * Wt / W - op.CD * Wa / W
    Ct := op.CL * Wa / W + op.CD * Wt / W }

/-- State of the bisection loop inside qprop(): the bracket [psi1, psi2] with
its endpoint residuals f1, f2, the current midpoint c with its residual fc,
and the record res of the last residual() call. -/
structure BisectSt where
  psi1 : ℝ
  psi2 : ℝ
  f1 : ℝ
  f2 : ℝ
  c : ℝ
  fc : ℝ
  res : Residual

/-- Midpoint evaluation at the top of each bisection iteration:
c = (psi1+psi2)/2, then residual(c) fills fc and res. -/
def bstepEval (f : ℝ → Residual) (s : BisectSt) : BisectSt :=
  { s with
    c := 0.5 * (s.psi1 + s.psi2)
    fc := (f (0.5 * (s.psi1 + s.psi2))).residual
    res := f (0.5 * (s.psi1 + s.psi2)) }

/-- Bracket halving at the bottom of each bisection iteration: the half on
which the residual changes sign is kept. -/
def bhalve (s : BisectSt) : BisectSt :=
  if s.f1 * s.fc < 0 then { s with psi2 := s.c, f2 := s.fc }
  else { s with psi1 := s.c, f1 := s.fc }

/-- Stopping test of the bisection in qprop(): both the residual magnitude
and the half bracket width must be at or below tol. -/
def bdone (tol : ℝ) (s : BisectSt) : Prop :=
  |s.fc| ≤ tol ∧ 0.5 * (s.psi2 - s.psi1) ≤ tol

/-- The bisection for-loop of qprop() with its fuel (remaining iterations):
evaluate the midpoint, break when bdone holds there, otherwise halve the
bracket and continue; when the fuel runs out the state is returned as is. -/
def bloop (f : ℝ → Residual) (tol : ℝ) : ℕ → BisectSt → BisectSt
  | 0, s => s
  | k + 1, s =>
      let t := bstepEval f s
      if |t.fc| ≤ tol ∧ 0.5 * (t.psi2 - t.psi1) ≤ tol then t
      else bloop f tol k (bhalve t)

/-- One full bisection iteration without the break: midpoint evaluation
followed by halving. -/
def bnext (f : ℝ → Residual) (s : BisectSt) : BisectSt :=
  bhalve (bstepEval f s)

/-- State at the j-th midpoint evaluation of the bisection loop, counting
from 0, when no break has occurred earlier. -/
def bMid (f : ℝ → Residual) (s : BisectSt) (j : ℕ) : BisectSt :=
  bstepEval f ((bnext f)^[j] s)

/-- Loop state just before the bisection for-loop of qprop(): bracket
[-pi/2, +pi/2] with its endpoint residuals, c = 0, fc = 1.0, and res holding
the record of the last residual() call, which evaluated psi2. -/
def stationInit (f : ℝ → Residual) : BisectSt :=
  ⟨-(Real.pi/2), Real.pi/2, (f (-(Real.pi/2))).residual, (f (Real.pi/2)).residual,
   0, 1, f (Real.pi/2)⟩

/-- The per-station bisection of qprop(): the loop run for itmax iterations
from the initial bracket state. -/
def stationSolve (f : ℝ → Residual) (tol : ℝ) (itmax : ℕ) : BisectSt :=
  bloop f tol itmax (stationInit f)

/-- Parameter bundle of one qprop() invocation: the scalar arguments of the
C function together with the per-rotor quantities R = D/2 and B that qprop()
passes to every residual() call. -/
structure QP where
  Uinf : ℝ
  Omega : ℝ
  tol : ℝ
  itmax : ℕ
  rho : ℝ
  mu : ℝ
  a : ℝ
  R : ℝ
  B : ℤ

/-- The residual function of one blade element as qprop() closes over it:
residual(psi, Uinf, Omega*r, D/2, B, element, rho, mu, a). -/
def elemResid (P : QP) (e : Element) : ℝ → Residual :=
  fun psi => residualF psi P.Uinf (P.Omega * e.r) P.R P.B e P.rho P.mu P.a

/-- Final bisection state of one blade element's station solve in qprop(). -/
def elemSolve (P : QP) (e : Element) : BisectSt :=
  stationSolve (elemResid P e) P.tol P.itmax

/-- Thrust distribution entry written by qprop() for one element:
dT/dr = 0.5 * rho * W^2 * Cn * c with W, Cn from the final residual record. -/
def dTdrOf (P : QP) (e : Element) : ℝ :=
  0.5 * P.rho * (elemSolve P e).res.W * (elemSolve P e).res.W *
    (elemSolve P e).res.Cn * e.c

/-- Torque distribution entry written by qprop() for one element:
dQ/dr = 0.5 * rho * W^2 * Ct * c * r. -/
def dQdrOf (P : QP) (e : Element) : ℝ :=
  0.5 * P.rho * (elemSolve P e).res.W * (elemSolve P e).res.W *
    (elemSolve P e).res.Ct * e.c * e.r

/-- Partial performance record accumulated by the station loop of qprop():
running thrust and torque integrals plus the per-station output arrays in
station order. -/
structure PerfAcc where
  T : ℝ
  Q : ℝ
  residuals : List ℝ
  Gamma : List ℝ
  lambdaw : List ℝ
  r : List ℝ
  W : List ℝ
  phi : List ℝ
  dTdr : List ℝ
  dQdr : List ℝ

/-- The empty accumulator qprop() starts from: T = Q = 0 and no station
slots written yet. -/
def emptyAcc : PerfAcc := ⟨0, 0, [], [], [], [], [], [], [], []⟩

/-- Body of the station loop of qprop() after a successful bracket check:
solve the station by bisection, write its result slots, and accumulate the
thrust and torque Riemann sums with the element width dr. -/
def recordStep (P : QP) (acc : PerfAcc) (e : Element) : PerfAcc :=
  { T := acc.T + dTdrOf P e * e.dr
    Q := acc.Q + dQdrOf P e * e.dr
    residuals := acc.residuals ++ [(elemSolve P e).fc]
    Gamma := acc.Gamma ++ [(elemSolve P e).res.Gamma]
    lambdaw := acc.lambdaw ++ [(elemSolve P e).res.lambdaw]
    r := acc.r ++ [e.r]
    W := acc.W ++ [(elemSolve P e).res.W]
    phi := acc.phi ++ [(elemSolve P e).res.phi]
    dTdr := acc.dTdr ++ [dTdrOf P e]
    dQdr := acc.dQdr ++ [dQdrOf P e] }

/-- Bracket-check failure of qprop() at one element: the residuals at
psi = -pi/2 and psi = +pi/2 have the same (nonzero) sign, i.e. f1*f2 > 0. -/
def sameSignAt (P : QP) (e : Element) : Prop :=
  0 < (elemResid P e (-(Real.pi/2))).residual * (elemResid P e (Real.pi/2)).residual

/-- The station loop of qprop() over the remaining elements, carrying the
index of the current element and the accumulator; on a bracket-check failure
it stops and reports the failing index (the C code prints the index and
returns the partial record immediately). -/
def qpropGo (P : QP) : List Element → ℕ → PerfAcc → PerfAcc × Option ℕ
  | [], _, acc => (acc, none)
  | e :: rest, i, acc =>
      if 0 < (elemResid P e (-(Real.pi/2))).residual *
             (elemResid P e (Real.pi/2)).residual then
        (acc, some i)
      else qpropGo P rest (i + 1) (recordStep P acc e)

/-- Performance record returned by qprop() (C struct RotorPerformance). -/
structure RotorPerf where
  T : ℝ
  Q : ℝ
  CT : ℝ
  CP : ℝ
  J : ℝ
  residuals : List ℝ
  Gamma : List ℝ
  lambdaw : List ℝ
  r : List ℝ
  W : List ℝ
  phi : List ℝ
  dTdr : List ℝ
  dQdr : List ℝ
  nelems : ℕ

/-- Record returned on the early-return error path of qprop(): the partial
sums and slots as accumulated, with T and Q not yet scaled by the blade
count and CT, CP, J still at their initialized value 0. -/
def failPerf (acc : PerfAcc) (nelems : ℕ) : RotorPerf :=
  ⟨acc.T, acc.Q, 0, 0, 0, acc.residuals, acc.Gamma, acc.lambdaw, acc.r,
   acc.W, acc.phi, acc.dTdr, acc.dQdr, nelems⟩

/-- Record returned when every station passed the bracket check: thrust and
torque scaled by the blade count, and the derived coefficients
CT = T/(rho n^2 D^4), CQ = Q/(rho n^2 D^5), CP = 2 pi CQ, J = Uinf/(n D)
with n = Omega/(2 pi). -/
def donePerf (acc : PerfAcc) (D : ℝ) (B : ℤ) (Uinf Omega rho : ℝ)
    (nelems : ℕ) : RotorPerf :=
  let T := acc.T * (B : ℝ)
  let Q := acc.Q * (B : ℝ)
  let n := Omega / (2 * Real.pi)
  ⟨T, Q, T / (rho * n ^ 2 * D ^ 4), 2 * Real.pi * (Q / (rho * n ^ 2 * D ^ 5)),
   Uinf / (n * D), acc.residuals, acc.Gamma, acc.lambdaw, acc.r, acc.W,
   acc.phi, acc.dTdr, acc.dQdr, nelems⟩

/-- Parameter bundle built by qprop() from its arguments and the rotor. -/
def qctx (rotor : Rotor) (Uinf Omega tol : ℝ) (itmax : ℕ)
    (rho mu a : ℝ) : QP :=
  ⟨Uinf, Omega, tol, itmax, rho, mu, a, rotor.D / 2, rotor.B⟩

/-- qprop() from qprop.c: run the station loop over all blade elements; on a
bracket-check failure return the partial record together with the failing
element index, otherwise scale by the blade count, derive the dimensionless
coefficients and return the full record. -/
def qprop (rotor : Rotor) (Uinf Omega tol : ℝ) (itmax : ℕ)
    (rho mu a : ℝ) : RotorPerf × Option ℕ :=
  let P := qctx rotor Uinf Omega tol itmax rho mu a
  match qpropGo P rotor.elements 0 emptyAcc with
  | (acc, some i) => (failPerf acc rotor.elements.length, some i)
  | (acc, none) =>
      (donePerf acc rotor.D rotor.B Uinf Omega rho rotor.elements.length, none)

/-- Bare blade section of the portable rotor representation used by
refine_rotor_sections: chord, twist and radius (no width; the airfoil is
carried unchanged and plays no role in the refinement claims). -/
structure BSection where
  c : ℝ
  beta : ℝ
  r : ℝ

/-- Rotor in the bare-section representation consumed by the refinement
transform. -/
structure SRotor where
  D : ℝ
  B : ℤ
  sections : List BSection

/-- View of a bare section as an interpolation sample keyed by radius, with
chord in the CL slot and twist in the CD slot, so that the right-closed
bracket scan of the polar engine is reused verbatim. -/
def toPt (s : BSection) : PolarPt := ⟨s.r, s.c, s.beta⟩

/-- Modelled from the spec: the chord/twist lookup of refine_rotor_sections
(spec section 4.3), whose C implementation is not part of the sources at
hand (only its tests and language bindings are).  Chord and twist are
linearly interpolated over the original stations by radius with the same
right-closed bracket rule as the polar engine; radii at or outside the
original span clamp to the nearest endpoint. -/
def sectionInterp (ss : List BSection) (r : ℝ) : ℝ × ℝ :=
  let pts := ss.map toPt
  let fst := pts.headD dPt
  let lst := pts.getLastD dPt
  if r ≤ fst.alpha then (fst.CL, fst.CD)
  else if lst.alpha < r then (lst.CL, lst.CD)
  else bracketScan r pts

/-- Modelled from the spec: refine_rotor_sections (spec section 4.3), whose
C implementation is not part of the sources at hand.  The refined rotor has
n equally spaced stations at radii i*(D/2)/(n-1) for i = 0..n-1, with chord
and twist interpolated from the original stations by radius. -/
def refine_rotor_sections (old : SRotor) (n : ℕ) : SRotor :=
  { D := old.D
    B := old.B
    sections := (List.range n).map fun (i : ℕ) =>
      let r := (i : ℝ) * (old.D / 2) / ((n : ℝ) - 1)
      ⟨(sectionInterp old.sections r).1, (sectionInterp old.sections r).2, r⟩ }

/-- Default bare section for headD/getLastD reads. -/
def dSec : BSection := ⟨0, 0, 0⟩

/-- Two-sample polar with constant coefficients CLv and CDv over the angle
range [-10, 10] rad, at Re = 100; concrete input for several witnesses. -/
def pK (CLv CDv : ℝ) : Polar := ⟨100, [⟨-10, CLv, CDv⟩, ⟨10, CLv, CDv⟩]⟩

/-- Single-polar airfoil built on pK; concrete input for several witnesses. -/
def afK (CLv CDv : ℝ) : Airfoil := ⟨[pK CLv CDv]⟩

/-- One-element rotor of diameter 4 with a single blade, the element at
radius 1 with unit chord and width, zero twist, and the constant airfoil
afK CLv 1; concrete input for the qprop() witnesses. -/
def rotorK (CLv : ℝ) : Rotor := ⟨4, 1, [⟨1, 0, 1, 1, afK CLv 1⟩]⟩

/-- Polar whose first sample sits exactly at alpha = -pi/2, the anchor angle
of the below-minimum CD interpolation; concrete counterexample input. -/
def pHit : Polar := ⟨100, [⟨-(Real.pi/2), 1, 1/2⟩, ⟨0, 1, 1/2⟩]⟩

/-- Polar whose two samples both lie below -pi/2; concrete counterexample
input for the extrapolation claim. -/
def pLow : Polar := ⟨100, [⟨-2, 1, 1/2⟩, ⟨-9/5, 1, 1/2⟩]⟩

/-- Polar with distinct samples inside (-pi/2, pi/2); concrete witness
input for the polar-query claims. -/
def pW : Polar := ⟨100, [⟨0, 3, 5⟩, ⟨1, 7, 9⟩]⟩

/-- Polar with both CD samples below 2 and angles inside (-pi/2, pi/2);
concrete witness input for the extrapolation claim. -/
def pW2 : Polar := ⟨100, [⟨-1, 4, 1/2⟩, ⟨1, 4, 3/2⟩]⟩

/-- Residual function whose residual equals the trial angle itself and whose
by-products are zero; concrete witness input for the bisection claim. -/
def idResid : ℝ → Residual := fun psi => ⟨psi, 0, 0, 0, 0, 0, 0, 0, 0⟩

/-- Two-section bare rotor of diameter 2; concrete witness input for the
refinement claim. -/
def sRotorW : SRotor := ⟨2, 2, [⟨1, 1/2, 0⟩, ⟨4/5, 3/10, 1⟩]⟩

theorem interp1_self (x1 y1 y2 xq : ℝ) : interp1 x1 y1 x1 y2 xq = y1 := by
  simp [interp1]

theorem interp1_right (x1 y1 x2 y2 : ℝ) (h : x2 ≠ x1) :
    interp1 x1 y1 x2 y2 x2 = y2 := by
  unfold interp1
  rw [if_neg h]
  have h' : x2 - x1 ≠ 0 := sub_ne_zero.mpr h
  field_simp

theorem interp1_const (x1 y x2 xq : ℝ) : interp1 x1 y x2 y xq = y := by
  unfold interp1
  split <;> simp

theorem headD_eq_get {α : Type} (l : List α) (d : α) (h : l ≠ []) :
    l.headD d = l.get ⟨0, List.length_pos.mpr h⟩ := by
  cases l with
  | nil => exact absurd rfl h
  | cons a t => rfl

theorem getLastD_eq_get {α : Type} (l : List α) (d : α) (h : l ≠ []) (hl : l.length - 1 < l.length) :
    l.getLastD d = l.get ⟨l.length - 1, hl⟩ := by
  rw [List.getLastD_eq_getLast?, List.getLast?_eq_getLast l h, Option.getD_some,
    List.getLast_eq_get]

theorem bracketScan_get (l : List PolarPt)
    (hp : List.Pairwise (fun u v => u.alpha < v.alpha) l) :
    ∀ (i : ℕ) (hi : i < l.length), 1 ≤ i →
      bracketScan (l.get ⟨i, hi⟩).alpha l =
        ((l.get ⟨i, hi⟩).CL, (l.get ⟨i, hi⟩).CD) := by
  induction l with
  | nil => intro i hi h1; simp at hi
  | cons p1 tail ih =>
      intro i hi h1
      match tail, i with
      | [], j + 1 => simp at hi
      | p2 :: rest, 1 =>
          have hlt : p1.alpha < p2.alpha := (List.pairwise_cons.mp hp).1 p2 (by simp)
          show bracketScan p2.alpha (p1 :: p2 :: rest) = (p2.CL, p2.CD)
          unfold bracketScan
          rw [if_pos ⟨hlt, le_refl _⟩, interp1_right _ _ _ _ (ne_of_gt hlt),
            interp1_right _ _ _ _ (ne_of_gt hlt)]
      | p2 :: rest, j + 2 =>
          have hi' : j + 1 < (p2 :: rest).length := by
            simpa using Nat.lt_of_succ_lt_succ hi
          have hget : (p1 :: p2 :: rest).get ⟨j + 2, hi⟩ =
              (p2 :: rest).get ⟨j + 1, hi'⟩ := rfl
          have hmem : (p2 :: rest).get ⟨j + 1, hi'⟩ ∈ p2 :: rest :=
            List.get_mem _ _ _
          have h1lt : p1.alpha < ((p2 :: rest).get ⟨j + 1, hi'⟩).alpha :=
            (List.pairwise_cons.mp hp).1 _ hmem
          have hptail : List.Pairwise (fun u v => u.alpha < v.alpha) (p2 :: rest) :=
            (List.pairwise_cons.mp hp).2
          have h2lt : p2.alpha < ((p2 :: rest).get ⟨j + 1, hi'⟩).alpha := by
            have := List.pairwise_iff_get.mp hptail ⟨0, by simp⟩ ⟨j + 1, hi'⟩
              (by simp [Fin.lt_def])
            simpa using this
          rw [hget]
          unfold bracketScan
          rw [if_neg (by
            intro hcon
            exact absurd hcon.2 (not_le.mpr h2lt))]
          exact ih hptail (j + 1) hi' (Nat.le_add_left 1 j)

theorem reBracket_single (p : Polar) (Re : ℝ) :
    reBracket ⟨[p]⟩ Re = (p, p) := by
  unfold reBracket
  simp only [List.headD, List.getLastD]
  split
  · rfl
  · split
    · rfl
    · rfl

theorem airfoil_single (p : Polar) (alpha Re Mach : ℝ) :
    interpolate_airfoil_polars ⟨[p]⟩ alpha Re Mach =
      ⟨alpha, machCorrect Mach (interpolate_polar p alpha).CL,
       (interpolate_polar p alpha).CD⟩ := by
  unfold interpolate_airfoil_polars
  rw [reBracket_single]
  simp [interp1_self]

theorem machCorrect_zero (CL : ℝ) : machCorrect 0 CL = CL := by
  unfold machCorrect
  rw [if_neg (by intro h; exact lt_irrefl 0 h.1)]

theorem machCorrect_zero_CL (M : ℝ) : machCorrect M 0 = 0 := by
  unfold machCorrect
  split <;> simp

theorem airfoil_mach (af : Airfoil) (alpha Re M : ℝ) :
    interpolate_airfoil_polars af alpha Re M =
      ⟨alpha, machCorrect M (interpolate_airfoil_polars af alpha Re 0).CL,
       (interpolate_airfoil_polars af alpha Re 0).CD⟩ := by
  simp only [interpolate_airfoil_polars, machCorrect_zero]

theorem pK_query_CL (CLv CDv alpha : ℝ) (h1 : -10 < alpha) (h2 : alpha ≤ 10) :
    interpolate_polar (pK CLv CDv) alpha = ⟨alpha, CLv, CDv⟩ := by
  have hhead : (pK CLv CDv).pts.headD dPt = ⟨-10, CLv, CDv⟩ := rfl
  have hlast : (pK CLv CDv).pts.getLastD dPt = ⟨10, CLv, CDv⟩ := rfl
  have hscan : bracketScan alpha (pK CLv CDv).pts = (CLv, CDv) := by
    show bracketScan alpha (⟨-10, CLv, CDv⟩ :: ⟨10, CLv, CDv⟩ :: []) = (CLv, CDv)
    unfold bracketScan
    rw [if_pos ⟨h1, h2⟩]
    simp [interp1_const]
  unfold interpolate_polar
  rw [hhead, hlast, if_neg (not_le.mpr h1), if_neg (not_lt.mpr h2), hscan]

theorem headD_key_le_getLastD {α : Type} (key : α → ℝ) (l : List α) (d : α)
    (h : l ≠ []) (hp : List.Pairwise (fun u v => key u < key v) l) :
    key (l.headD d) ≤ key (l.getLastD d) := by
  have hl : l.length - 1 < l.length :=
    Nat.sub_lt (List.length_pos.mpr h) Nat.one_pos
  rw [headD_eq_get l d h, getLastD_eq_get l d h hl]
  by_cases hm : l.length - 1 = 0
  · have : l.get ⟨0, List.length_pos.mpr h⟩ = l.get ⟨l.length - 1, hl⟩ := by
      congr 1
      exact Fin.ext hm.symm
    rw [this]
  · exact le_of_lt (List.pairwise_iff_get.mp hp ⟨0, List.length_pos.mpr h⟩
      ⟨l.length - 1, hl⟩ (by simp [Fin.lt_def]; omega))

theorem interpolate_polar_below (p : Polar) (alpha : ℝ)
    (h : alpha ≤ (p.pts.headD dPt).alpha) :
    interpolate_polar p alpha =
      ⟨alpha, (p.pts.headD dPt).CL,
       interp1 (-(Real.pi/2)) 2 (p.pts.headD dPt).alpha (p.pts.headD dPt).CD alpha⟩ := by
  unfold interpolate_polar
  rw [if_pos h]

theorem interpolate_polar_above (p : Polar) (alpha : ℝ)
    (h1 : ¬ alpha ≤ (p.pts.headD dPt).alpha)
    (h2 : (p.pts.getLastD dPt).alpha < alpha) :
    interpolate_polar p alpha =
      ⟨alpha, (p.pts.getLastD dPt).CL,
       interp1 (p.pts.getLastD dPt).alpha (p.pts.getLastD dPt).CD
         (Real.pi/2) 2 alpha⟩ := by
  unfold interpolate_polar
  rw [if_neg h1, if_pos h2]

/-- Claim C5, amended: for 0 < Mach < 0.99 the airfoil query returns the
uncorrected CL divided by sqrt(1 - Mach^2); for Mach <= 0 or Mach >= 0.99 it
returns the uncorrected result unchanged with no error; and |CL| strictly
increases with Mach on (0, 0.99) whenever the uncorrected CL is nonzero (the
claim's unconditional strict growth fails when the uncorrected CL is 0). -/
theorem c5_mach_correction_amended (af : Airfoil) (alpha Re M M1 M2 : ℝ) :
    ((0 < M ∧ M < 0.99) →
      (interpolate_airfoil_polars af alpha Re M).CL =
        (interpolate_airfoil_polars af alpha Re 0).CL / Real.sqrt (1 - M * M))
    ∧ ((M ≤ 0 ∨ 0.99 ≤ M) →
      interpolate_airfoil_polars af alpha Re M =
        interpolate_airfoil_polars af alpha Re 0)
    ∧ (0 < M1 → M1 < M2 → M2 < 0.99 →
      (interpolate_airfoil_polars af alpha Re 0).CL ≠ 0 →
      |(interpolate_airfoil_polars af alpha Re M1).CL| <
        |(interpolate_airfoil_polars af alpha Re M2).CL|) := by
  refine ⟨?_, ?_, ?_⟩
  · intro hM
    rw [airfoil_mach af alpha Re M]
    show machCorrect M (interpolate_airfoil_polars af alpha Re 0).CL = _
    unfold machCorrect
    rw [if_pos hM]
  · intro hM
    rw [airfoil_mach af alpha Re M]
    conv_rhs => rw [airfoil_mach af alpha Re 0]
    rw [machCorrect_zero]
    congr 1
    unfold machCorrect
    rw [if_neg (by rintro ⟨h1, h2⟩; rcases hM with h | h <;> linarith)]
  · intro h1 h2 h3 h0
    rw [airfoil_mach af alpha Re M1, airfoil_mach af alpha Re M2]
    show |machCorrect M1 (interpolate_airfoil_polars af alpha Re 0).CL| <
      |machCorrect M2 (interpolate_airfoil_polars af alpha Re 0).CL|
    unfold machCorrect
    rw [if_pos ⟨h1, by linarith⟩, if_pos ⟨lt_trans h1 h2, h3⟩]
    have hq2 : 0 < 1 - M2 * M2 := by nlinarith
    have hq1 : 1 - M2 * M2 < 1 - M1 * M1 := by nlinarith
    have hs2 : 0 < Real.sqrt (1 - M2 * M2) := Real.sqrt_pos.mpr hq2
    have hslt : Real.sqrt (1 - M2 * M2) < Real.sqrt (1 - M1 * M1) :=
      Real.sqrt_lt_sqrt (le_of_lt hq2) hq1
    rw [abs_div, abs_div, abs_of_pos (lt_trans hs2 hslt), abs_of_pos hs2]
    exact div_lt_div_of_pos_left (abs_pos.mpr h0) hs2 hslt

/-- Counterexample to claim C5 as stated: for the airfoil afK 0 1, whose
tabulated CL is identically 0, the returned |CL| does not strictly increase
with Mach on (0, 0.99); at alpha = 0, Re = 50 it is 0 at both Mach = 1/2 and
Mach = 3/5. -/
theorem c5_counterexample :
    ¬ (|(interpolate_airfoil_polars (afK 0 1) 0 50 (1/2)).CL| <
       |(interpolate_airfoil_polars (afK 0 1) 0 50 (3/5)).CL|) := by
  have h1 : ∀ M : ℝ, (interpolate_airfoil_polars (afK 0 1) 0 50 M).CL = 0 := by
    intro M
    rw [show afK 0 1 = ⟨[pK 0 1]⟩ from rfl, airfoil_single,
      pK_query_CL 0 1 0 (by norm_num) (by norm_num)]
    exact machCorrect_zero_CL M
  rw [h1 (1/2), h1 (3/5)]
  simp

/-- Witness for C5: at the airfoil afK 1 1 (uncorrected CL = 1) the
correction formula holds at Mach = 1/2 and |CL| grows strictly from
Mach = 1/2 to Mach = 3/5. -/
theorem c5_witness :
    ((interpolate_airfoil_polars (afK 1 1) 0 50 (1/2)).CL =
      (interpolate_airfoil_polars (afK 1 1) 0 50 0).CL /
        Real.sqrt (1 - (1/2 : ℝ) * (1/2)))
    ∧ |(interpolate_airfoil_polars (afK 1 1) 0 50 (1/2)).CL| <
        |(interpolate_airfoil_polars (afK 1 1) 0 50 (3/5)).CL| := by
  have hbase : (interpolate_airfoil_polars (afK 1 1) 0 50 0).CL = 1 := by
    rw [show afK 1 1 = ⟨[pK 1 1]⟩ from rfl, airfoil_single,
      pK_query_CL 1 1 0 (by norm_num) (by norm_num)]
    exact machCorrect_zero 1
  exact ⟨(c5_mach_correction_amended (afK 1 1) 0 50 (1/2) 0 0).1
      ⟨by norm_num, by norm_num⟩,
    (c5_mach_correction_amended (afK 1 1) 0 50 0 (1/2) (3/5)).2.2
      (by norm_num) (by norm_num) (by norm_num) (by rw [hbase]; norm_num)⟩

/-- Claim C8, amended: for Re at or below the lowest tabulated Reynolds
number the airfoil query returns exactly the lowest polar's per-polar result
with the Mach correction of CL applied afterwards (the per-polar result
itself when Mach <= 0 or Mach >= 0.99), for Re above the highest tabulated
Reynolds number likewise with the highest polar, and hence the result is
constant in Re on either side of the table bounds; the collapsed Re
interpolation is well defined through the degenerate-segment guard. -/
theorem c8_re_clamp_amended (af : Airfoil) (alpha M : ℝ)
    (hne : af.polars ≠ [])
    (hp : List.Pairwise (fun u v => u.Re < v.Re) af.polars) :
    (∀ Re, Re ≤ (af.polars.headD dPol).Re →
      interpolate_airfoil_polars af alpha Re M =
        ⟨alpha,
         machCorrect M (interpolate_polar (af.polars.headD dPol) alpha).CL,
         (interpolate_polar (af.polars.headD dPol) alpha).CD⟩)
    ∧ (∀ Re, (af.polars.getLastD dPol).Re < Re →
      interpolate_airfoil_polars af alpha Re M =
        ⟨alpha,
         machCorrect M (interpolate_polar (af.polars.getLastD dPol) alpha).CL,
         (interpolate_polar (af.polars.getLastD dPol) alpha).CD⟩)
    ∧ (∀ Re1 Re2, Re1 ≤ (af.polars.headD dPol).Re →
        Re2 ≤ (af.polars.headD dPol).Re →
      interpolate_airfoil_polars af alpha Re1 M =
        interpolate_airfoil_polars af alpha Re2 M)
    ∧ (∀ Re1 Re2, (af.polars.getLastD dPol).Re < Re1 →
        (af.polars.getLastD dPol).Re < Re2 →
      interpolate_airfoil_polars af alpha Re1 M =
        interpolate_airfoil_polars af alpha Re2 M) := by
  have hlow : ∀ Re, Re ≤ (af.polars.headD dPol).Re →
      reBracket af Re = (af.polars.headD dPol, af.polars.headD dPol) := by
    intro Re h
    unfold reBracket
    rw [if_pos h]
  have hhigh : ∀ Re, (af.polars.getLastD dPol).Re < Re →
      reBracket af Re = (af.polars.getLastD dPol, af.polars.getLastD dPol) := by
    intro Re h
    have hle : (af.polars.headD dPol).Re ≤ (af.polars.getLastD dPol).Re :=
      headD_key_le_getLastD Polar.Re af.polars dPol hne hp
    unfold reBracket
    rw [if_neg (not_le.mpr (lt_of_le_of_lt hle h)), if_pos h]
  have h1 : ∀ Re, Re ≤ (af.polars.headD dPol).Re →
      interpolate_airfoil_polars af alpha Re M =
        ⟨alpha,
         machCorrect M (interpolate_polar (af.polars.headD dPol) alpha).CL,
         (interpolate_polar (af.polars.headD dPol) alpha).CD⟩ := by
    intro Re h
    simp only [interpolate_airfoil_polars, hlow Re h, interp1_self]
  have h2 : ∀ Re, (af.polars.getLastD dPol).Re < Re →
      interpolate_airfoil_polars af alpha Re M =
        ⟨alpha,
         machCorrect M (interpolate_polar (af.polars.getLastD dPol) alpha).CL,
         (interpolate_polar (af.polars.getLastD dPol) alpha).CD⟩ := by
    intro Re h
    simp only [interpolate_airfoil_polars, hhigh Re h, interp1_self]
  exact ⟨h1, h2,
    fun Re1 Re2 ha hb => (h1 Re1 ha).trans (h1 Re2 hb).symm,
    fun Re1 Re2 ha hb => (h2 Re1 ha).trans (h2 Re2 hb).symm⟩

/-- Counterexample to claim C8 as stated: at Mach = 1/2 and Re = 50, below
the single tabulated Reynolds number 100 of the airfoil afK 1 1, the airfoil
query does not return the lowest polar's per-polar query result: the CL
comes back divided by sqrt(1 - Mach^2). -/
theorem c8_counterexample :
    (interpolate_airfoil_polars (afK 1 1) 0 50 (1/2)).CL ≠
      (interpolate_polar (pK 1 1) 0).CL := by
  rw [show afK 1 1 = ⟨[pK 1 1]⟩ from rfl, airfoil_single,
    pK_query_CL 1 1 0 (by norm_num) (by norm_num)]
  show machCorrect (1/2) 1 ≠ 1
  unfold machCorrect
  rw [if_pos ⟨by norm_num, by norm_num⟩]
  have hlt : Real.sqrt (1 - (1/2 : ℝ) * (1/2)) < 1 := by
    calc Real.sqrt (1 - (1/2 : ℝ) * (1/2)) < Real.sqrt 1 :=
        Real.sqrt_lt_sqrt (by norm_num) (by norm_num)
      _ = 1 := Real.sqrt_one
  have hpos : 0 < Real.sqrt (1 - (1/2 : ℝ) * (1/2)) :=
    Real.sqrt_pos.mpr (by norm_num)
  exact ne_of_gt (one_lt_one_div hpos hlt)

/-- Witness for C8: on the single-polar airfoil afK 2 3 (Re table = [100]),
the query at Re = 50 collapses to the lowest polar's result, and the queries
at Re = 50 and Re = 25 agree. -/
theorem c8_witness :
    (interpolate_airfoil_polars (afK 2 3) 0 50 0 =
      ⟨0, machCorrect 0 (interpolate_polar ((afK 2 3).polars.headD dPol) 0).CL,
       (interpolate_polar ((afK 2 3).polars.headD dPol) 0).CD⟩)
    ∧ interpolate_airfoil_polars (afK 2 3) 0 50 0 =
        interpolate_airfoil_polars (afK 2 3) 0 25 0 := by
  have hne : (afK 2 3).polars ≠ [] := by simp [afK]
  have hp : List.Pairwise (fun u v => u.Re < v.Re) (afK 2 3).polars := by
    simp [afK]
  have hhead : ((afK 2 3).polars.headD dPol).Re = 100 := rfl
  exact ⟨(c8_re_clamp_amended (afK 2 3) 0 0 hne hp).1 50 (by rw [hhead]; norm_num),
    (c8_re_clamp_amended (afK 2 3) 0 0 hne hp).2.2.1 50 25
      (by rw [hhead]; norm_num) (by rw [hhead]; norm_num)⟩

/-- Claim C6: for a polar with strictly increasing angles, a query strictly
below the minimum tabulated angle (with -pi/2 < alpha) returns the minimum
sample's CL and a CD linearly interpolated between the anchor (-pi/2, 2.0)
and the minimum sample, hence strictly between that sample's CD and 2.0 when
they differ; symmetrically above the maximum angle with anchor (+pi/2, 2.0). -/
theorem c6_out_of_range_query (p : Polar) (alpha : ℝ)
    (hne : p.pts ≠ [])
    (hp : List.Pairwise (fun u v => u.alpha < v.alpha) p.pts) :
    ((-(Real.pi/2) < alpha → alpha < (p.pts.headD dPt).alpha →
      (interpolate_polar p alpha).CL = (p.pts.headD dPt).CL ∧
      (interpolate_polar p alpha).CD =
        interp1 (-(Real.pi/2)) 2 (p.pts.headD dPt).alpha (p.pts.headD dPt).CD alpha ∧
      ((p.pts.headD dPt).CD ≠ 2 →
        min (p.pts.headD dPt).CD 2 < (interpolate_polar p alpha).CD ∧
        (interpolate_polar p alpha).CD < max (p.pts.headD dPt).CD 2)))
    ∧ ((p.pts.getLastD dPt).alpha < alpha → alpha < Real.pi/2 →
      (interpolate_polar p alpha).CL = (p.pts.getLastD dPt).CL ∧
      (interpolate_polar p alpha).CD =
        interp1 (p.pts.getLastD dPt).alpha (p.pts.getLastD dPt).CD
          (Real.pi/2) 2 alpha ∧
      ((p.pts.getLastD dPt).CD ≠ 2 →
        min (p.pts.getLastD dPt).CD 2 < (interpolate_polar p alpha).CD ∧
        (interpolate_polar p alpha).CD < max (p.pts.getLastD dPt).CD 2)) := by
  constructor
  · intro hlo hhi
    rw [interpolate_polar_below p alpha (le_of_lt hhi)]
    refine ⟨rfl, rfl, ?_⟩
    intro hcd
    set a0 := (p.pts.headD dPt).alpha with ha0
    set cd0 := (p.pts.headD dPt).CD with hcd0
    have hne0 : a0 ≠ -(Real.pi/2) := by
      intro h
      rw [h] at hhi
      linarith
    show min cd0 2 < interp1 (-(Real.pi/2)) 2 a0 cd0 alpha ∧
      interp1 (-(Real.pi/2)) 2 a0 cd0 alpha < max cd0 2
    unfold interp1
    rw [if_neg hne0]
    have hApos : 0 < alpha - -(Real.pi/2) := by linarith
    have hBpos : 0 < a0 - -(Real.pi/2) := by linarith
    rcases lt_or_gt_of_ne hcd with h | h
    · rw [min_eq_left (le_of_lt h), max_eq_right (le_of_lt h)]
      constructor
      · have key : cd0 - 2 < (alpha - -(Real.pi/2)) * (cd0 - 2) / (a0 - -(Real.pi/2)) := by
          rw [lt_div_iff hBpos]
          nlinarith [mul_neg_of_neg_of_pos (show cd0 - 2 < 0 by linarith)
            (show (0:ℝ) < a0 - alpha by linarith)]
        linarith
      · have key : (alpha - -(Real.pi/2)) * (cd0 - 2) / (a0 - -(Real.pi/2)) < 0 :=
          div_neg_of_neg_of_pos
            (mul_neg_of_pos_of_neg hApos (by linarith)) hBpos
        linarith
    · rw [min_eq_right (le_of_lt h), max_eq_left (le_of_lt h)]
      constructor
      · have key : 0 < (alpha - -(Real.pi/2)) * (cd0 - 2) / (a0 - -(Real.pi/2)) :=
          div_pos (mul_pos hApos (by linarith)) hBpos
        linarith
      · have key : (alpha - -(Real.pi/2)) * (cd0 - 2) / (a0 - -(Real.pi/2)) < cd0 - 2 := by
          rw [div_lt_iff hBpos]
          nlinarith [mul_pos (show (0:ℝ) < cd0 - 2 by linarith)
            (show (0:ℝ) < a0 - alpha by linarith)]
        linarith
  · intro hlo hhi
    have hhead : (p.pts.headD dPt).alpha ≤ (p.pts.getLastD dPt).alpha :=
      headD_key_le_getLastD PolarPt.alpha p.pts dPt hne hp
    rw [interpolate_polar_above p alpha (not_le.mpr (lt_of_le_of_lt hhead hlo)) hlo]
    refine ⟨rfl, rfl, ?_⟩
    intro hcd
    set aN := (p.pts.getLastD dPt).alpha with haN
    set cdN := (p.pts.getLastD dPt).CD with hcdN
    have hneN : (Real.pi/2) ≠ aN := by
      intro h
      rw [← h] at hlo
      linarith
    show min cdN 2 < interp1 aN cdN (Real.pi/2) 2 alpha ∧
      interp1 aN cdN (Real.pi/2) 2 alpha < max cdN 2
    unfold interp1
    rw [if_neg hneN]
    have hApos : 0 < alpha - aN := by linarith
    have hBpos : 0 < Real.pi/2 - aN := by linarith
    have hAB : alpha - aN < Real.pi/2 - aN := by linarith
    rcases lt_or_gt_of_ne hcd with h | h
    · rw [min_eq_left (le_of_lt h), max_eq_right (le_of_lt h)]
      constructor
      · have key : 0 < (alpha - aN) * (2 - cdN) / (Real.pi/2 - aN) :=
          div_pos (mul_pos hApos (by linarith)) hBpos
        linarith
      · have key : (alpha - aN) * (2 - cdN) / (Real.pi/2 - aN) < 2 - cdN := by
          rw [div_lt_iff hBpos]
          nlinarith [mul_pos (show (0:ℝ) < 2 - cdN by linarith)
            (show (0:ℝ) < Real.pi/2 - alpha by linarith)]
        linarith
    · rw [min_eq_right (le_of_lt h), max_eq_left (le_of_lt h)]
      constructor
      · have key : 2 - cdN < (alpha - aN) * (2 - cdN) / (Real.pi/2 - aN) := by
          rw [lt_div_iff hBpos]
          nlinarith [mul_neg_of_neg_of_pos (show 2 - cdN < 0 by linarith)
            (show (0:ℝ) < Real.pi/2 - alpha by linarith)]
        linarith
      · have key : (alpha - aN) * (2 - cdN) / (Real.pi/2 - aN) < 0 :=
          div_neg_of_neg_of_pos
            (mul_neg_of_pos_of_neg hApos (by linarith)) hBpos
        linarith

/-- Witness for C6: on the polar pW (angles 0 and 1, CDs 5 and 9) the query
at alpha = -1 clamps CL to 3 and yields a CD strictly between 2 and 5, and
the query at alpha = 5/4 clamps CL to 7 and yields a CD strictly between 2
and 9. -/
theorem c6_witness :
    ((interpolate_polar pW (-1)).CL = 3 ∧
      min (5:ℝ) 2 < (interpolate_polar pW (-1)).CD ∧
      (interpolate_polar pW (-1)).CD < max (5:ℝ) 2)
    ∧ ((interpolate_polar pW (5/4)).CL = 7 ∧
      min (9:ℝ) 2 < (interpolate_polar pW (5/4)).CD ∧
      (interpolate_polar pW (5/4)).CD < max (9:ℝ) 2) := by
  have hne : pW.pts ≠ [] := by simp [pW]
  have hp : List.Pairwise (fun u v => u.alpha < v.alpha) pW.pts := by
    simp [pW]
  have hhead : pW.pts.headD dPt = ⟨0, 3, 5⟩ := rfl
  have hlast : pW.pts.getLastD dPt = ⟨1, 7, 9⟩ := rfl
  have hpi : (3:ℝ) < Real.pi := Real.pi_gt_three
  constructor
  · have h := (c6_out_of_range_query pW (-1) hne hp).1
      (by linarith) (by rw [hhead]; norm_num)
    rw [hhead] at h
    exact ⟨h.1, (h.2.2 (by norm_num)).1, (h.2.2 (by norm_num)).2⟩
  · have h := (c6_out_of_range_query pW (5/4) hne hp).2
      (by rw [hlast]; norm_num) (by linarith)
    rw [hlast] at h
    exact ⟨h.1, (h.2.2 (by norm_num)).1, (h.2.2 (by norm_num)).2⟩

theorem interpolate_polar_mid (p : Polar) (alpha : ℝ)
    (h1 : ¬ alpha ≤ (p.pts.headD dPt).alpha)
    (h2 : ¬ (p.pts.getLastD dPt).alpha < alpha) :
    interpolate_polar p alpha =
      ⟨alpha, (bracketScan alpha p.pts).1, (bracketScan alpha p.pts).2⟩ := by
  unfold interpolate_polar
  rw [if_neg h1, if_neg h2]

/-- Claim C7, amended: for a polar with strictly increasing angles, querying
at the i-th tabulated angle returns exactly that sample's (CL, CD), provided
for i = 0 that the minimum angle is not exactly -pi/2 (at an exact anchor
collision the degenerate-segment guard returns the anchor CD 2.0 instead of
the sample's CD). -/
theorem c7_exact_sample_amended (p : Polar)
    (hp : List.Pairwise (fun u v => u.alpha < v.alpha) p.pts)
    (i : ℕ) (hi : i < p.pts.length)
    (h0 : i = 0 → (p.pts.get ⟨i, hi⟩).alpha ≠ -(Real.pi/2)) :
    (interpolate_polar p ((p.pts.get ⟨i, hi⟩).alpha)).CL =
      (p.pts.get ⟨i, hi⟩).CL ∧
    (interpolate_polar p ((p.pts.get ⟨i, hi⟩).alpha)).CD =
      (p.pts.get ⟨i, hi⟩).CD := by
  have hne : p.pts ≠ [] := by
    intro h
    rw [h] at hi
    simp at hi
  have hh : p.pts.headD dPt = p.pts.get ⟨0, List.length_pos.mpr hne⟩ :=
    headD_eq_get p.pts dPt hne
  have hlenlt : p.pts.length - 1 < p.pts.length :=
    Nat.sub_lt (List.length_pos.mpr hne) Nat.one_pos
  have hl : p.pts.getLastD dPt = p.pts.get ⟨p.pts.length - 1, hlenlt⟩ :=
    getLastD_eq_get p.pts dPt hne hlenlt
  match i, hi, h0 with
  | 0, hi, h0 =>
      have hb := interpolate_polar_below p ((p.pts.get ⟨0, hi⟩).alpha)
        (by rw [hh])
      rw [hb, hh]
      refine ⟨rfl, ?_⟩
      exact interp1_right _ _ _ _ (h0 rfl)
  | j + 1, hi, _ =>
      have hlow : (p.pts.get ⟨0, List.length_pos.mpr hne⟩).alpha <
          (p.pts.get ⟨j + 1, hi⟩).alpha :=
        List.pairwise_iff_get.mp hp _ _ (by simp [Fin.lt_def])
      have hhigh : (p.pts.get ⟨j + 1, hi⟩).alpha ≤
          (p.pts.get ⟨p.pts.length - 1, hlenlt⟩).alpha := by
        rcases Nat.lt_or_ge (j + 1) (p.pts.length - 1) with hlt | hge
        · exact le_of_lt (List.pairwise_iff_get.mp hp _ _ (by simp [Fin.lt_def]; omega))
        · have : j + 1 = p.pts.length - 1 := by omega
          have hfin : (⟨j + 1, hi⟩ : Fin p.pts.length) = ⟨p.pts.length - 1, hlenlt⟩ :=
            Fin.ext this
          rw [hfin]
      have hm := interpolate_polar_mid p ((p.pts.get ⟨j + 1, hi⟩).alpha)
        (by rw [hh]; exact not_le.mpr hlow) (by rw [hl]; exact not_lt.mpr hhigh)
      rw [hm, bracketScan_get p.pts hp (j + 1) hi (Nat.le_add_left 1 j)]
      exact ⟨rfl, rfl⟩

/-- Counterexample to claim C7 as stated: the polar pHit has its minimum
sample exactly at alpha = -pi/2 with CD = 1/2; querying at that tabulated
angle returns CD = 2 (the anchor value via the degenerate-segment guard),
not the sample's CD. -/
theorem c7_counterexample :
    (interpolate_polar pHit (-(Real.pi/2))).CD ≠ (1/2 : ℝ) ∧
    (interpolate_polar pHit (-(Real.pi/2))).CD = 2 := by
  have hhead : pHit.pts.headD dPt = ⟨-(Real.pi/2), 1, 1/2⟩ := rfl
  have hbr := interpolate_polar_below pHit (-(Real.pi/2))
    (by rw [hhead])
  rw [hbr, hhead]
  have he : interp1 (-(Real.pi/2)) 2 (-(Real.pi/2)) (1/2) (-(Real.pi/2)) = 2 :=
    interp1_self _ _ _ _
  refine ⟨?_, ?_⟩
  · show interp1 (-(Real.pi/2)) 2 (-(Real.pi/2)) (1/2) (-(Real.pi/2)) ≠ 1/2
    rw [he]
    norm_num
  · exact he

/-- Witness for C7: on the polar pW, the queries at the tabulated angles 0
and 1 return exactly the tabulated samples (3, 5) and (7, 9). -/
theorem c7_witness :
    ((interpolate_polar pW 0).CL = 3 ∧ (interpolate_polar pW 0).CD = 5)
    ∧ ((interpolate_polar pW 1).CL = 7 ∧ (interpolate_polar pW 1).CD = 9) := by
  have hp : List.Pairwise (fun u v => u.alpha < v.alpha) pW.pts := by
    simp [pW]
  have hlen0 : 0 < pW.pts.length := by simp [pW]
  have hlen1 : 1 < pW.pts.length := by simp [pW]
  have h0 := c7_exact_sample_amended pW hp 0 hlen0
    (fun _ => by
      show (0:ℝ) ≠ -(Real.pi/2)
      have hpi := Real.pi_pos
      intro hcon
      linarith)
  have h1 := c7_exact_sample_amended pW hp 1 hlen1 (fun hcon => by omega)
  exact ⟨h0, h1⟩

/-- Claim C10, amended: for a polar whose minimum tabulated angle lies
strictly above -pi/2 and whose minimum sample has CD below 2, every query
strictly below -pi/2 returns CD strictly greater than 2, and the CD grows
without bound as alpha decreases (the anchor is an interpolation knot, not a
cap); symmetrically above +pi/2 when the maximum angle lies below +pi/2 and
the maximum sample's CD is below 2.  The claim as stated, without the
angle-position provisos, fails for tables lying beyond the anchors. -/
theorem c10_extrapolation_amended (p : Polar) (hne : p.pts ≠ [])
    (hp : List.Pairwise (fun u v => u.alpha < v.alpha) p.pts) :
    ((-(Real.pi/2) < (p.pts.headD dPt).alpha → (p.pts.headD dPt).CD < 2 →
      (∀ alpha, alpha < -(Real.pi/2) → 2 < (interpolate_polar p alpha).CD)
      ∧ (∀ M, ∃ alpha, alpha < -(Real.pi/2) ∧ M < (interpolate_polar p alpha).CD)))
    ∧ ((p.pts.getLastD dPt).alpha < Real.pi/2 → (p.pts.getLastD dPt).CD < 2 →
      (∀ alpha, Real.pi/2 < alpha → 2 < (interpolate_polar p alpha).CD)
      ∧ (∀ M, ∃ alpha, Real.pi/2 < alpha ∧ M < (interpolate_polar p alpha).CD)) := by
  constructor
  · intro hpos hcd
    set a0 := (p.pts.headD dPt).alpha with ha0
    set cd0 := (p.pts.headD dPt).CD with hcd0
    have hB : 0 < a0 - -(Real.pi/2) := by linarith
    have hne0 : a0 ≠ -(Real.pi/2) := by
      intro h
      rw [h] at hB
      linarith
    have hval : ∀ alpha, alpha < -(Real.pi/2) →
        (interpolate_polar p alpha).CD =
          2 + (alpha - -(Real.pi/2)) * (cd0 - 2) / (a0 - -(Real.pi/2)) := by
      intro alpha halpha
      rw [interpolate_polar_below p alpha (by rw [← ha0]; linarith)]
      show interp1 (-(Real.pi/2)) 2 a0 cd0 alpha = _
      unfold interp1
      rw [if_neg hne0]
    constructor
    · intro alpha halpha
      rw [hval alpha halpha]
      have hfrac : 0 < (alpha - -(Real.pi/2)) * (cd0 - 2) / (a0 - -(Real.pi/2)) :=
        div_pos (mul_pos_of_neg_of_neg (by linarith) (by linarith)) hB
      linarith
    · intro M
      set q := (M - 2) * (a0 - -(Real.pi/2)) / (cd0 - 2) with hq
      refine ⟨-(Real.pi/2) + min (-1) (q - 1), by
        have := min_le_left (-1 : ℝ) (q - 1)
        linarith, ?_⟩
      rw [hval _ (by have := min_le_left (-1 : ℝ) (q - 1); linarith)]
      have htq : min (-1 : ℝ) (q - 1) < q :=
        lt_of_le_of_lt (min_le_right _ _) (by linarith)
      have hkneg : cd0 - 2 < 0 := by linarith
      have hmul : q * (cd0 - 2) < min (-1 : ℝ) (q - 1) * (cd0 - 2) := by
        exact mul_lt_mul_of_neg_right htq hkneg
      have hkne : cd0 - 2 ≠ 0 := by linarith
      have hqk : q * (cd0 - 2) = (M - 2) * (a0 - -(Real.pi/2)) := by
        rw [hq]
        exact div_mul_cancel₀ _ hkne
      have key : M - 2 < (-(Real.pi/2) + min (-1) (q - 1) - -(Real.pi/2)) *
          (cd0 - 2) / (a0 - -(Real.pi/2)) := by
        rw [lt_div_iff hB]
        have : -(Real.pi/2) + min (-1) (q - 1) - -(Real.pi/2) = min (-1) (q - 1) := by
          ring
        rw [this]
        calc (M - 2) * (a0 - -(Real.pi/2)) = q * (cd0 - 2) := hqk.symm
          _ < min (-1 : ℝ) (q - 1) * (cd0 - 2) := hmul
      linarith
  · intro hpos hcd
    set aN := (p.pts.getLastD dPt).alpha with haN
    set cdN := (p.pts.getLastD dPt).CD with hcdN
    have hhd : (p.pts.headD dPt).alpha ≤ aN :=
      headD_key_le_getLastD PolarPt.alpha p.pts dPt hne hp
    have hB : 0 < Real.pi/2 - aN := by linarith
    have hneN : (Real.pi/2) ≠ aN := by
      intro h
      rw [h] at hB
      linarith
    have hval : ∀ alpha, Real.pi/2 < alpha →
        (interpolate_polar p alpha).CD =
          cdN + (alpha - aN) * (2 - cdN) / (Real.pi/2 - aN) := by
      intro alpha halpha
      rw [interpolate_polar_above p alpha (by push_neg; linarith) (by linarith)]
      show interp1 aN cdN (Real.pi/2) 2 alpha = _
      unfold interp1
      rw [if_neg hneN]
    constructor
    · intro alpha halpha
      rw [hval alpha halpha]
      have hAB : Real.pi/2 - aN < alpha - aN := by linarith
      have key : (2 - cdN) < (alpha - aN) * (2 - cdN) / (Real.pi/2 - aN) := by
        rw [lt_div_iff hB]
        nlinarith [mul_pos (show (0:ℝ) < 2 - cdN by linarith)
          (show (0:ℝ) < alpha - Real.pi/2 by linarith)]
      linarith
    · intro M
      set q := (M - cdN) * (Real.pi/2 - aN) / (2 - cdN) with hq
      set A := max (Real.pi/2 - aN + 1) (q + 1) with hA
      have hA1 : Real.pi/2 - aN + 1 ≤ A := le_max_left _ _
      have hA2 : q + 1 ≤ A := le_max_right _ _
      refine ⟨aN + A, by linarith, ?_⟩
      rw [hval _ (by linarith)]
      have hkne : 2 - cdN ≠ 0 := by linarith
      have hqk : q * (2 - cdN) = (M - cdN) * (Real.pi/2 - aN) := by
        rw [hq]
        exact div_mul_cancel₀ _ hkne
      have key : M - cdN < (aN + A - aN) * (2 - cdN) / (Real.pi/2 - aN) := by
        rw [lt_div_iff hB]
        have hsimp : aN + A - aN = A := by ring
        rw [hsimp]
        calc (M - cdN) * (Real.pi/2 - aN) = q * (2 - cdN) := hqk.symm
          _ < A * (2 - cdN) := by
            exact mul_lt_mul_of_pos_right (by linarith) (by linarith)
      linarith

/-- Counterexample to claim C10 as stated: the polar pLow has both samples
below -pi/2, its minimum sample has CD = 1/2 < 2, yet the query at
alpha = -5/2 (strictly below -pi/2) returns a CD below 2, not above. -/
theorem c10_counterexample :
    ¬ (2 < (interpolate_polar pLow (-(5:ℝ)/2)).CD) := by
  have hhead : pLow.pts.headD dPt = ⟨-2, 1, 1/2⟩ := rfl
  have hpi3 : (3:ℝ) < Real.pi := Real.pi_gt_three
  have hpi315 : Real.pi < 3.15 := Real.pi_lt_315
  have hbr := interpolate_polar_below pLow (-(5:ℝ)/2) (by rw [hhead]; norm_num)
  rw [hbr, hhead]
  show ¬ (2 < interp1 (-(Real.pi/2)) 2 (-2) (1/2) (-(5:ℝ)/2))
  unfold interp1
  rw [if_neg (by intro h; rw [show ((-2:ℝ) = -(Real.pi/2)) ↔ (Real.pi = 4) by constructor <;> intro <;> linarith] at h; linarith)]
  have hnum : 0 < (-(5:ℝ)/2 - -(Real.pi/2)) * ((1:ℝ)/2 - 2) :=
    mul_pos_of_neg_of_neg (by linarith) (by norm_num)
  have hden : (-2:ℝ) - -(Real.pi/2) < 0 := by linarith
  have hfrac : (-(5:ℝ)/2 - -(Real.pi/2)) * ((1:ℝ)/2 - 2) / ((-2:ℝ) - -(Real.pi/2)) < 0 :=
    div_neg_of_pos_of_neg hnum hden
  push_neg
  linarith

/-- Witness for C10: on the polar pW2 (angles -1 and 1, CDs 1/2 and 3/2,
both below 2) the query at alpha = -2 returns CD above 2, CD exceeds 1000
at some alpha below -pi/2, and symmetrically above +pi/2. -/
theorem c10_witness :
    (2 < (interpolate_polar pW2 (-2)).CD)
    ∧ (∃ alpha, alpha < -(Real.pi/2) ∧ 1000 < (interpolate_polar pW2 alpha).CD)
    ∧ (2 < (interpolate_polar pW2 2).CD)
    ∧ (∃ alpha, Real.pi/2 < alpha ∧ 1000 < (interpolate_polar pW2 alpha).CD) := by
  have hne : pW2.pts ≠ [] := by simp [pW2]
  have hp : List.Pairwise (fun u v => u.alpha < v.alpha) pW2.pts := by
    simp [pW2]
  have hhead : pW2.pts.headD dPt = ⟨-1, 4, 1/2⟩ := rfl
  have hlast : pW2.pts.getLastD dPt = ⟨1, 4, 3/2⟩ := rfl
  have hpi3 : (3:ℝ) < Real.pi := Real.pi_gt_three
  have hpi315 : Real.pi < 3.15 := Real.pi_lt_315
  have hlow := (c10_extrapolation_amended pW2 hne hp).1
    (by rw [hhead]; show -(Real.pi/2) < -1; linarith)
    (by rw [hhead]; norm_num)
  have hhigh := (c10_extrapolation_amended pW2 hne hp).2
    (by rw [hlast]; show (1:ℝ) < Real.pi/2; linarith)
    (by rw [hlast]; norm_num)
  exact ⟨hlow.1 (-2) (by linarith), hlow.2 1000,
    hhigh.1 2 (by linarith), hhigh.2 1000⟩

/-- Claim C1, code bug: the residual evaluation passes
machOf W a = sqrt(W/a) to the airfoil interpolation when a > 0, not W/a as
the specification states: at W = 4, a = 1 the code passes Mach = 2 while the
specified Mach number is W/a = 4; the zero case for a non-positive speed of
sound does match the specification. -/
theorem c1_mach_eval :
    machOf 4 1 = 2 ∧ machOf 4 1 ≠ 4 / 1 ∧ machOf 4 0 = 0 := by
  have h : machOf 4 1 = Real.sqrt 4 := by
    unfold machOf
    rw [if_pos (by norm_num)]
    norm_num
  have h4 : Real.sqrt 4 = 2 := by
    rw [show (4:ℝ) = 2^2 by norm_num, Real.sqrt_sq (by norm_num)]
  refine ⟨h.trans h4, ?_, ?_⟩
  · rw [h.trans h4]
    norm_num
  · unfold machOf
    rw [if_neg (by norm_num)]

theorem bhalve_c (s : BisectSt) : (bhalve s).c = s.c := by
  unfold bhalve
  split <;> rfl

theorem bhalve_fc (s : BisectSt) : (bhalve s).fc = s.fc := by
  unfold bhalve
  split <;> rfl

theorem bhalve_res (s : BisectSt) : (bhalve s).res = s.res := by
  unfold bhalve
  split <;> rfl

theorem bMid_succ (f : ℝ → Residual) (s : BisectSt) (j : ℕ) :
    bMid f s (j + 1) = bMid f (bnext f s) j := by
  unfold bMid
  rw [Function.iterate_succ_apply]

theorem bloop_eq_of_done (f : ℝ → Residual) (tol : ℝ) :
    ∀ (j m : ℕ) (s : BisectSt), j < m →
      bdone tol (bMid f s j) →
      (∀ j', j' < j → ¬ bdone tol (bMid f s j')) →
      bloop f tol m s = bMid f s j := by
  intro j
  induction j with
  | zero =>
      intro m s hm hd _
      match m, hm with
      | m' + 1, _ =>
          show bloop f tol (m' + 1) s = _
          simp only [bloop]
          split
          · rfl
          · next hcond => exact absurd hd hcond
  | succ j' ih =>
      intro m s hm hd hnone
      match m, hm with
      | m' + 1, hm =>
          show bloop f tol (m' + 1) s = _
          simp only [bloop]
          split
          · next hcond => exact absurd hcond (hnone 0 (Nat.succ_pos j'))
          · next hcond =>
              rw [bMid_succ]
              exact ih m' (bnext f s) (Nat.lt_of_succ_lt_succ hm)
                (by rw [← bMid_succ]; exact hd)
                (fun i hi => by
                  rw [← bMid_succ]
                  exact hnone (i + 1) (Nat.succ_lt_succ hi))

theorem bloop_eq_of_not_done (f : ℝ → Residual) (tol : ℝ) :
    ∀ (m : ℕ) (s : BisectSt), 1 ≤ m →
      (∀ j, j < m → ¬ bdone tol (bMid f s j)) →
      bloop f tol m s = bhalve (bMid f s (m - 1)) := by
  intro m
  induction m with
  | zero => intro s h; omega
  | succ m' ih =>
      intro s _ hnone
      show bloop f tol (m' + 1) s = _
      simp only [bloop]
      split
      · next hcond => exact absurd hcond (hnone 0 (Nat.succ_pos m'))
      · next hcond =>
          rcases Nat.eq_zero_or_pos m' with hz | hpos
          · subst hz
            show bloop f tol 0 (bnext f s) = _
            simp only [bloop]
            rfl
          · have hstep : bloop f tol m' (bhalve (bstepEval f s)) =
                bhalve (bMid f (bnext f s) (m' - 1)) :=
              ih (bnext f s) hpos
                (fun i hi => by
                  rw [← bMid_succ]
                  exact hnone (i + 1) (Nat.succ_lt_succ hi))
            rw [hstep]
            congr 1
            rw [← bMid_succ]
            congr 1
            omega

/-- Claim C3: the per-station bisection over [-pi/2, +pi/2] returns the
first midpoint state at which BOTH |residual| <= tol and half the bracket
width <= tol hold, when such a midpoint occurs within itmax iterations (so a
small residual alone never stops the loop); and when no midpoint within
itmax satisfies both conditions, the returned state still carries the last
midpoint's c, residual fc and by-product record res, with no error raised
(halving after the last midpoint does not touch those fields). -/
theorem c3_bisection_exit (f : ℝ → Residual) (tol : ℝ) (itmax : ℕ)
    (hit : 1 ≤ itmax) :
    (∀ j, j < itmax → bdone tol (bMid f (stationInit f) j) →
      (∀ j', j' < j → ¬ bdone tol (bMid f (stationInit f) j')) →
      stationSolve f tol itmax = bMid f (stationInit f) j)
    ∧ ((∀ j, j < itmax → ¬ bdone tol (bMid f (stationInit f) j)) →
      (stationSolve f tol itmax).c = (bMid f (stationInit f) (itmax - 1)).c ∧
      (stationSolve f tol itmax).fc = (bMid f (stationInit f) (itmax - 1)).fc ∧
      (stationSolve f tol itmax).res = (bMid f (stationInit f) (itmax - 1)).res) := by
  constructor
  · intro j hj hd hnone
    exact bloop_eq_of_done f tol j itmax (stationInit f) hj hd hnone
  · intro hnone
    have h := bloop_eq_of_not_done f tol itmax (stationInit f) hit hnone
    unfold stationSolve
    rw [h, bhalve_c, bhalve_fc, bhalve_res]
    exact ⟨rfl, rfl, rfl⟩

/-- Witness for C3: with the residual function idResid (residual = psi) and
tol = 2, the very first midpoint 0 of the bracket [-pi/2, pi/2] satisfies
both stopping conditions, and one iteration returns that midpoint state. -/
theorem c3_witness :
    stationSolve idResid 2 1 = bMid idResid (stationInit idResid) 0 := by
  have hpi4 : Real.pi ≤ 4 := Real.pi_le_four
  have hdone : bdone 2 (bMid idResid (stationInit idResid) 0) := by
    constructor
    · show |(idResid (0.5 * (-(Real.pi/2) + Real.pi/2))).residual| ≤ 2
      have hz : (0.5 : ℝ) * (-(Real.pi/2) + Real.pi/2) = 0 := by ring
      show |0.5 * (-(Real.pi/2) + Real.pi/2)| ≤ 2
      rw [hz]
      norm_num
    · show 0.5 * (Real.pi/2 - -(Real.pi/2)) ≤ 2
      have : (0.5 : ℝ) * (Real.pi/2 - -(Real.pi/2)) = Real.pi/2 := by ring
      rw [this]
      linarith
  exact (c3_bisection_exit idResid 2 1 le_rfl).1 0 Nat.one_pos hdone
    (fun j' hj' => absurd hj' (Nat.not_lt_zero j'))

theorem getD_map_range {β : Type} (f : ℕ → β) (n i : ℕ) (h : i < n) (d : β) :
    ((List.range n).map f).getD i d = f i := by
  rw [List.getD_eq_getElem _ _ (by simpa using h)]
  simp

theorem refined_sections_eq (old : SRotor) (n : ℕ) :
    (refine_rotor_sections old n).sections =
      (List.range n).map (fun i : ℕ =>
        (⟨(sectionInterp old.sections ((i : ℝ) * (old.D / 2) / ((n : ℝ) - 1))).1,
          (sectionInterp old.sections ((i : ℝ) * (old.D / 2) / ((n : ℝ) - 1))).2,
          (i : ℝ) * (old.D / 2) / ((n : ℝ) - 1)⟩ : BSection)) := rfl

theorem refined_radii_mono (old : SRotor) (n : ℕ) (h2 : 2 ≤ n) (hD : 0 < old.D) :
    ∀ i j : ℕ, i < j →
      (i : ℝ) * (old.D / 2) / ((n : ℝ) - 1) <
        (j : ℝ) * (old.D / 2) / ((n : ℝ) - 1) := by
  intro i j hij
  have hn : (1 : ℝ) ≤ (n : ℝ) - 1 := by
    have : (2 : ℝ) ≤ (n : ℝ) := by exact_mod_cast h2
    linarith
  have hx : (0 : ℝ) < (n : ℝ) - 1 := by linarith
  have hc : (i : ℝ) < (j : ℝ) := by exact_mod_cast hij
  have hD2 : (0 : ℝ) < old.D / 2 := by linarith
  gcongr

theorem sectionInterp_first (ss : List BSection) (r : ℝ)
    (h : r ≤ ((ss.map toPt).headD dPt).alpha) :
    sectionInterp ss r =
      (((ss.map toPt).headD dPt).CL, ((ss.map toPt).headD dPt).CD) := by
  unfold sectionInterp
  rw [if_pos h]

theorem sectionInterp_mid (ss : List BSection) (r : ℝ)
    (h1 : ¬ r ≤ ((ss.map toPt).headD dPt).alpha)
    (h2 : ¬ ((ss.map toPt).getLastD dPt).alpha < r) :
    sectionInterp ss r = bracketScan r (ss.map toPt) := by
  unfold sectionInterp
  rw [if_neg h1, if_neg h2]

theorem map_toPt_headD (ss : List BSection) (h : ss ≠ []) :
    (ss.map toPt).headD dPt = toPt (ss.headD dSec) := by
  cases ss with
  | nil => exact absurd rfl h
  | cons a t => rfl

theorem map_toPt_getLastD (ss : List BSection) (h : ss ≠ []) :
    (ss.map toPt).getLastD dPt = toPt (ss.getLastD dSec) := by
  have hlm : (ss.map toPt).length = ss.length := by simp
  have hne' : ss.map toPt ≠ [] := by simpa using h
  have hl1 : ss.length - 1 < ss.length := Nat.sub_lt (List.length_pos.mpr h) Nat.one_pos
  have hl2 : (ss.map toPt).length - 1 < (ss.map toPt).length := by omega
  rw [getLastD_eq_get _ _ hne' hl2, getLastD_eq_get _ _ h hl1]
  have : (ss.map toPt).get ⟨(ss.map toPt).length - 1, hl2⟩ =
      toPt (ss.get ⟨ss.length - 1, hl1⟩) := by
    simp
  exact this

theorem sectionInterp_at_sample (ss : List BSection)
    (hp : List.Pairwise (fun u v => u.r < v.r) ss) :
    ∀ (i : ℕ) (hi : i < ss.length),
      sectionInterp ss ((ss.get ⟨i, hi⟩).r) =
        ((ss.get ⟨i, hi⟩).c, (ss.get ⟨i, hi⟩).beta) := by
  intro i hi
  have hne : ss ≠ [] := by
    intro h
    rw [h] at hi
    simp at hi
  have hh : ss.headD dSec = ss.get ⟨0, List.length_pos.mpr hne⟩ :=
    headD_eq_get ss dSec hne
  have hl1 : ss.length - 1 < ss.length := Nat.sub_lt (List.length_pos.mpr hne) Nat.one_pos
  have hl : ss.getLastD dSec = ss.get ⟨ss.length - 1, hl1⟩ :=
    getLastD_eq_get ss dSec hne hl1
  have hp_pts : List.Pairwise (fun u v => u.alpha < v.alpha) (ss.map toPt) :=
    List.pairwise_map.mpr hp
  match i, hi with
  | 0, hi =>
      have hfirst := sectionInterp_first ss ((ss.get ⟨0, hi⟩).r)
        (by rw [map_toPt_headD ss hne, hh]; exact le_refl _)
      rw [hfirst, map_toPt_headD ss hne, hh]
      rfl
  | j + 1, hi =>
      have hlow : (ss.get ⟨0, List.length_pos.mpr hne⟩).r < (ss.get ⟨j + 1, hi⟩).r :=
        List.pairwise_iff_get.mp hp _ _ (by simp [Fin.lt_def])
      have hhigh : (ss.get ⟨j + 1, hi⟩).r ≤ (ss.get ⟨ss.length - 1, hl1⟩).r := by
        rcases Nat.lt_or_ge (j + 1) (ss.length - 1) with hlt | hge
        · exact le_of_lt (List.pairwise_iff_get.mp hp _ _ (by simp [Fin.lt_def]; omega))
        · have : j + 1 = ss.length - 1 := by omega
          have hfin : (⟨j + 1, hi⟩ : Fin ss.length) = ⟨ss.length - 1, hl1⟩ :=
            Fin.ext this
          rw [hfin]
      have hm := sectionInterp_mid ss ((ss.get ⟨j + 1, hi⟩).r)
        (by rw [map_toPt_headD ss hne, hh]; exact not_le.mpr hlow)
        (by rw [map_toPt_getLastD ss hne, hl]; exact not_lt.mpr hhigh)
      rw [hm]
      have hglen : j + 1 < (ss.map toPt).length := by simpa using hi
      have htarget : (ss.get ⟨j + 1, hi⟩).r =
          ((ss.map toPt).get ⟨j + 1, hglen⟩).alpha := by
        rw [List.get_map]
        rfl
      rw [htarget, bracketScan_get (ss.map toPt) hp_pts (j + 1) hglen (Nat.le_add_left 1 j)]
      rw [List.get_map]
      rfl

theorem refined_length (old : SRotor) (n : ℕ) :
    (refine_rotor_sections old n).sections.length = n := by
  rw [refined_sections_eq]
  simp

theorem refined_getD (old : SRotor) (n i : ℕ) (hi : i < n) :
    (refine_rotor_sections old n).sections.getD i dSec =
      ⟨(sectionInterp old.sections ((i : ℝ) * (old.D / 2) / ((n : ℝ) - 1))).1,
       (sectionInterp old.sections ((i : ℝ) * (old.D / 2) / ((n : ℝ) - 1))).2,
       (i : ℝ) * (old.D / 2) / ((n : ℝ) - 1)⟩ := by
  rw [refined_sections_eq, getD_map_range _ n i hi]

theorem refined_pairwise (old : SRotor) (n : ℕ) (h2 : 2 ≤ n) (hD : 0 < old.D) :
    List.Pairwise (fun u v => u.r < v.r) (refine_rotor_sections old n).sections := by
  rw [refined_sections_eq]
  refine List.pairwise_map.mpr ?_
  exact (List.pairwise_lt_range n).imp (fun h => refined_radii_mono old n h2 hD _ _ h)

/-- Claim C9 (modelled from the spec, section 4.3, as the C implementation
of refine_rotor_sections is not among the sources, only its tests and
bindings): for n >= 2 the refinement produces n stations at radii
i*(D/2)/(n-1), so the span is conserved (first radius 0, last radius D/2,
all radii within [0, D/2]), and applying the transform twice with the same n
reproduces the refined rotor exactly. -/
theorem c9_refine_props (old : SRotor) (n : ℕ) (hn2 : 2 ≤ n) (hD : 0 < old.D)
    (hne : old.sections ≠ []) :
    ((refine_rotor_sections old n).sections.length = n)
    ∧ (∀ i, i < n → ((refine_rotor_sections old n).sections.getD i dSec).r =
        (i : ℝ) * (old.D / 2) / ((n : ℝ) - 1))
    ∧ (((refine_rotor_sections old n).sections.headD dSec).r = 0)
    ∧ (((refine_rotor_sections old n).sections.getLastD dSec).r = old.D / 2)
    ∧ (∀ i, i < n → 0 ≤ ((refine_rotor_sections old n).sections.getD i dSec).r ∧
        ((refine_rotor_sections old n).sections.getD i dSec).r ≤ old.D / 2)
    ∧ refine_rotor_sections (refine_rotor_sections old n) n =
        refine_rotor_sections old n := by
  have hx : (0 : ℝ) < (n : ℝ) - 1 := by
    have : (2 : ℝ) ≤ (n : ℝ) := by exact_mod_cast hn2
    linarith
  have hlen := refined_length old n
  have hne' : (refine_rotor_sections old n).sections ≠ [] := by
    intro h
    rw [h] at hlen
    simp at hlen
    omega
  have hradius : ∀ i, i < n →
      ((refine_rotor_sections old n).sections.getD i dSec).r =
        (i : ℝ) * (old.D / 2) / ((n : ℝ) - 1) := by
    intro i hi
    rw [refined_getD old n i hi]
  have hlenpos : 0 < (refine_rotor_sections old n).sections.length :=
    List.length_pos.mpr hne'
  have hhead : ((refine_rotor_sections old n).sections.headD dSec).r = 0 := by
    rw [headD_eq_get _ dSec hne', ← List.getD_eq_get _ dSec hlenpos,
      hradius 0 (by omega)]
    simp
  have hl1 : (refine_rotor_sections old n).sections.length - 1 <
      (refine_rotor_sections old n).sections.length := Nat.sub_lt hlenpos Nat.one_pos
  have hlast : ((refine_rotor_sections old n).sections.getLastD dSec).r = old.D / 2 := by
    rw [getLastD_eq_get _ dSec hne' hl1, ← List.getD_eq_get _ dSec hl1, hlen,
      hradius (n - 1) (by omega)]
    have hcast : ((n - 1 : ℕ) : ℝ) = (n : ℝ) - 1 := by
      have : (1 : ℕ) ≤ n := by omega
      push_cast [this]
      ring
    rw [hcast, mul_comm, mul_div_assoc, div_self (ne_of_gt hx), mul_one]
  have hbounds : ∀ i, i < n →
      0 ≤ ((refine_rotor_sections old n).sections.getD i dSec).r ∧
      ((refine_rotor_sections old n).sections.getD i dSec).r ≤ old.D / 2 := by
    intro i hi
    rw [hradius i hi]
    constructor
    · exact div_nonneg (mul_nonneg (Nat.cast_nonneg i) (by linarith)) (le_of_lt hx)
    · rw [div_le_iff hx]
      have hco : (i : ℝ) + 1 ≤ (n : ℝ) := by exact_mod_cast hi
      nlinarith [mul_nonneg (show (0:ℝ) ≤ (n : ℝ) - 1 - (i : ℝ) by linarith)
        (show (0:ℝ) ≤ old.D / 2 by linarith)]
  have hsec : (refine_rotor_sections (refine_rotor_sections old n) n).sections =
      (refine_rotor_sections old n).sections := by
    apply List.ext_get
    · rw [refined_length, refined_length]
    · intro i h1 h2
      have hi : i < n := by rwa [refined_length] at h2
      rw [← List.getD_eq_get _ dSec h1, ← List.getD_eq_get _ dSec h2]
      rw [refined_getD (refine_rotor_sections old n) n i hi, refined_getD old n i hi]
      simp only [show (refine_rotor_sections old n).D = old.D from rfl]
      have hpair := refined_pairwise old n hn2 hD
      have hget : (refine_rotor_sections old n).sections.get ⟨i, h2⟩ =
          (⟨(sectionInterp old.sections ((i : ℝ) * (old.D / 2) / ((n : ℝ) - 1))).1,
            (sectionInterp old.sections ((i : ℝ) * (old.D / 2) / ((n : ℝ) - 1))).2,
            (i : ℝ) * (old.D / 2) / ((n : ℝ) - 1)⟩ : BSection) := by
        rw [← List.getD_eq_get _ dSec h2, refined_getD old n i hi]
      have hsample := sectionInterp_at_sample (refine_rotor_sections old n).sections
        hpair i h2
      rw [hget] at hsample
      have hs2 : sectionInterp (refine_rotor_sections old n).sections
          ((i : ℝ) * (old.D / 2) / ((n : ℝ) - 1)) =
          ((sectionInterp old.sections ((i : ℝ) * (old.D / 2) / ((n : ℝ) - 1))).1,
           (sectionInterp old.sections ((i : ℝ) * (old.D / 2) / ((n : ℝ) - 1))).2) :=
        hsample
      rw [hs2]
  refine ⟨hlen, hradius, hhead, hlast, hbounds, ?_⟩
  calc refine_rotor_sections (refine_rotor_sections old n) n
      = ⟨(refine_rotor_sections old n).D, (refine_rotor_sections old n).B,
         (refine_rotor_sections (refine_rotor_sections old n) n).sections⟩ := rfl
    _ = ⟨(refine_rotor_sections old n).D, (refine_rotor_sections old n).B,
         (refine_rotor_sections old n).sections⟩ := by rw [hsec]
    _ = refine_rotor_sections old n := rfl

/-- Witness for C9: refining the two-section rotor sRotorW (D = 2) to three
stations yields radii spanning [0, 1] with three stations, and refining the
result again with n = 3 reproduces it exactly. -/
theorem c9_witness :
    (refine_rotor_sections sRotorW 3).sections.length = 3
    ∧ ((refine_rotor_sections sRotorW 3).sections.headD dSec).r = 0
    ∧ ((refine_rotor_sections sRotorW 3).sections.getLastD dSec).r = sRotorW.D / 2
    ∧ refine_rotor_sections (refine_rotor_sections sRotorW 3) 3 =
        refine_rotor_sections sRotorW 3 := by
  have h := c9_refine_props sRotorW 3 (by norm_num)
    (by show (0:ℝ) < 2; norm_num) (by simp [sRotorW])
  exact ⟨h.1, h.2.2.1, h.2.2.2.1, h.2.2.2.2.2⟩

theorem machOf_zero (W : ℝ) : machOf W 0 = 0 := by
  unfold machOf
  rw [if_neg (lt_irrefl 0)]

theorem qpropGo_fail (P : QP) :
    ∀ (l : List Element) (k : ℕ) (hk : k < l.length),
      sameSignAt P (l.get ⟨k, hk⟩) →
      (∀ j (hj : j < l.length), j < k → ¬ sameSignAt P (l.get ⟨j, hj⟩)) →
      ∀ (i : ℕ) (acc : PerfAcc),
        qpropGo P l i acc =
          (List.foldl (recordStep P) acc (l.take k), some (i + k)) := by
  intro l
  induction l with
  | nil => intro k hk; simp at hk
  | cons e rest ih =>
      intro k hk hfail hok i acc
      match k, hk, hfail, hok with
      | 0, _, hfail, _ =>
          simp only [qpropGo]
          split
          · simp
          · next hcond => exact absurd hfail hcond
      | k' + 1, hk, hfail, hok =>
          simp only [qpropGo]
          split
          · next hcond =>
              exact absurd (show sameSignAt P e from hcond)
                (hok 0 (by simp) (Nat.succ_pos k'))
          · next hcond =>
              have hk' : k' < rest.length := by simpa using Nat.lt_of_succ_lt_succ hk
              rw [ih k' hk' hfail
                (fun j hj hjk => hok (j + 1) (by simpa using Nat.succ_lt_succ hj)
                  (Nat.succ_lt_succ hjk)) (i + 1) (recordStep P acc e)]
              rw [List.take_succ_cons, List.foldl_cons]
              have : i + 1 + k' = i + (k' + 1) := by omega
              rw [this]

theorem qpropGo_ok (P : QP) :
    ∀ (l : List Element), (∀ e ∈ l, ¬ sameSignAt P e) →
      ∀ (i : ℕ) (acc : PerfAcc),
        qpropGo P l i acc = (List.foldl (recordStep P) acc l, none) := by
  intro l
  induction l with
  | nil => intro _ i acc; simp [qpropGo]
  | cons e rest ih =>
      intro hok i acc
      simp only [qpropGo]
      split
      · next hcond => exact absurd hcond (hok e (by simp))
      · next hcond =>
          rw [ih (fun x hx => hok x (by simp [hx])) (i + 1) (recordStep P acc e),
            List.foldl_cons]

theorem foldl_record (P : QP) :
    ∀ (l : List Element) (acc : PerfAcc),
      List.foldl (recordStep P) acc l =
        ⟨acc.T + (l.map (fun e => dTdrOf P e * e.dr)).sum,
         acc.Q + (l.map (fun e => dQdrOf P e * e.dr)).sum,
         acc.residuals ++ l.map (fun e => (elemSolve P e).fc),
         acc.Gamma ++ l.map (fun e => (elemSolve P e).res.Gamma),
         acc.lambdaw ++ l.map (fun e => (elemSolve P e).res.lambdaw),
         acc.r ++ l.map (fun e => e.r),
         acc.W ++ l.map (fun e => (elemSolve P e).res.W),
         acc.phi ++ l.map (fun e => (elemSolve P e).res.phi),
         acc.dTdr ++ l.map (fun e => dTdrOf P e),
         acc.dQdr ++ l.map (fun e => dQdrOf P e)⟩ := by
  intro l
  induction l with
  | nil => intro acc; cases acc; simp
  | cons e rest ih =>
      intro acc
      rw [List.foldl_cons, ih (recordStep P acc e)]
      simp [recordStep, add_assoc]

/-- Claim C2: if the residuals at the bracket endpoints psi = -pi/2 and
psi = +pi/2 have the same sign at the (first such) station k, while all
earlier stations pass the bracket check, then qprop() stops at station k: it
returns the failing index as the observable failure signal together with the
record accumulated over stations 0..k-1 only (no bisection and no load
integration happen for station k or any later one, the per-station slots
hold exactly k entries, and the partial T, Q are still unscaled with CT, CP,
J at their initial 0). -/
theorem c2_bracket_failure_halts (rotor : Rotor) (Uinf Omega tol : ℝ)
    (itmax : ℕ) (rho mu a : ℝ) (k : ℕ) (hk : k < rotor.elements.length)
    (hfail : sameSignAt (qctx rotor Uinf Omega tol itmax rho mu a)
      (rotor.elements.get ⟨k, hk⟩))
    (hok : ∀ j (hj : j < rotor.elements.length), j < k →
      ¬ sameSignAt (qctx rotor Uinf Omega tol itmax rho mu a)
        (rotor.elements.get ⟨j, hj⟩)) :
    qprop rotor Uinf Omega tol itmax rho mu a =
      (failPerf (List.foldl (recordStep (qctx rotor Uinf Omega tol itmax rho mu a))
        emptyAcc (rotor.elements.take k)) rotor.elements.length, some k)
    ∧ (List.foldl (recordStep (qctx rotor Uinf Omega tol itmax rho mu a))
        emptyAcc (rotor.elements.take k)).residuals.length = k := by
  have hgo := qpropGo_fail (qctx rotor Uinf Omega tol itmax rho mu a)
    rotor.elements k hk hfail hok 0 emptyAcc
  constructor
  · simp only [qprop]
    rw [hgo]
    simp
  · rw [foldl_record]
    show (emptyAcc.residuals ++ _).length = k
    simp [emptyAcc, List.length_take]
    omega

theorem residualF_low_eval (CLv : ℝ) :
    (residualF (-(Real.pi/2)) 3 (4*1) (4/2) 1 ⟨1, 0, 1, 1, afK CLv 1⟩ 1 1 0).residual =
      -(0.5 * Real.sqrt 5 * 1 * CLv) := by
  have hsin : Real.sin (-(Real.pi/2)) = -1 := by
    rw [Real.sin_neg, Real.sin_pi_div_two]
  have hcos : Real.cos (-(Real.pi/2)) = 0 := by
    rw [Real.cos_neg, Real.cos_pi_div_two]
  have hU : Real.sqrt (3*3 + 4*1*(4*1) : ℝ) = 5 := by
    rw [show (3*3 + 4*1*(4*1) : ℝ) = 5^2 by norm_num, Real.sqrt_sq (by norm_num)]
  have harc : Real.arccos (Real.exp 1) = 0 :=
    Real.arccos_eq_zero.mpr (by
      rw [← Real.exp_zero]
      exact Real.exp_le_exp.mpr (by norm_num))
  have hat1 := Real.arctan_lt_pi_div_two (1/2 : ℝ)
  have hat2 := Real.neg_pi_div_two_lt_arctan (1/2 : ℝ)
  have hpi4 := Real.pi_le_four
  simp only [residualF]
  rw [hsin, hcos, hU]
  norm_num
  rw [harc, machOf_zero, show afK CLv 1 = (⟨[pK CLv 1]⟩ : Airfoil) from rfl,
    airfoil_single, machCorrect_zero,
    pK_query_CL CLv 1 (Real.arctan (1/2)) (by linarith) (by linarith)]
  simp

theorem residualF_high_pos :
    0 < (residualF (Real.pi/2) 3 (4*1) (4/2) 1 ⟨1, 0, 1, 1, afK (-1) 1⟩ 1 1 0).residual := by
  have hsin : Real.sin (Real.pi/2) = 1 := Real.sin_pi_div_two
  have hcos : Real.cos (Real.pi/2) = 0 := Real.cos_pi_div_two
  have hU : Real.sqrt (3*3 + 4*1*(4*1) : ℝ) = 5 := by
    rw [show (3*3 + 4*1*(4*1) : ℝ) = 5^2 by norm_num, Real.sqrt_sq (by norm_num)]
  have hat1 := Real.arctan_lt_pi_div_two (2 : ℝ)
  have hat2 := Real.neg_pi_div_two_lt_arctan (2 : ℝ)
  have hpi4 := Real.pi_le_four
  have hpip := Real.pi_pos
  simp only [residualF]
  rw [hsin, hcos, hU]
  norm_num
  rw [machOf_zero, show afK (-1) 1 = (⟨[pK (-1) 1]⟩ : Airfoil) from rfl,
    airfoil_single, machCorrect_zero,
    pK_query_CL (-1) 1 (-Real.arctan 2) (by linarith) (by linarith)]
  have harcpos : 0 < Real.arccos (Real.exp (-(1/4 : ℝ))) :=
    Real.arccos_pos.mpr (Real.exp_lt_one_iff.mpr (by norm_num))
  have hrhs : 0 < 2 * (4 * Real.pi) * (Real.arccos (Real.exp (-(1/4 : ℝ))) * 2 / Real.pi) *
      Real.sqrt (1 + (8 / Real.pi) ^ 2) :=
    mul_pos (mul_pos (mul_pos (by norm_num) (by linarith))
      (div_pos (mul_pos harcpos (by norm_num)) hpip))
      (Real.sqrt_pos.mpr (by positivity))
  have hlhs : (1/2 : ℝ) * Real.sqrt 20 * (-1 : ℝ) ≤ 0 := by
    have := Real.sqrt_nonneg (20 : ℝ)
    nlinarith
  calc (1/2 : ℝ) * Real.sqrt 20 *
        ((⟨-Real.arctan 2, -1, 1⟩ : PolarPt)).CL ≤ 0 := hlhs
    _ < _ := hrhs

theorem rotorK_fail :
    sameSignAt (qctx (rotorK (-1)) 3 4 (1/1000000) 100 1 1 0)
      ((rotorK (-1)).elements.get ⟨0, by simp [rotorK]⟩) := by
  show 0 < (residualF (-(Real.pi/2)) 3 (4*1) (4/2) 1 ⟨1, 0, 1, 1, afK (-1) 1⟩ 1 1 0).residual *
    (residualF (Real.pi/2) 3 (4*1) (4/2) 1 ⟨1, 0, 1, 1, afK (-1) 1⟩ 1 1 0).residual
  have h1 : 0 < (residualF (-(Real.pi/2)) 3 (4*1) (4/2) 1
      ⟨1, 0, 1, 1, afK (-1) 1⟩ 1 1 0).residual := by
    rw [residualF_low_eval (-1)]
    have := Real.sqrt_pos.mpr (show (0:ℝ) < 5 by norm_num)
    nlinarith
  exact mul_pos h1 residualF_high_pos

theorem rotorK_ok :
    ∀ e ∈ (rotorK 0).elements,
      ¬ sameSignAt (qctx (rotorK 0) 3 4 (1/1000000) 100 1 1 0) e := by
  intro e he
  simp only [rotorK, List.mem_singleton] at he
  subst he
  intro hcon
  have hcon' : 0 < (residualF (-(Real.pi/2)) 3 (4*1) (4/2) 1
      ⟨1, 0, 1, 1, afK 0 1⟩ 1 1 0).residual *
    (residualF (Real.pi/2) 3 (4*1) (4/2) 1 ⟨1, 0, 1, 1, afK 0 1⟩ 1 1 0).residual := hcon
  rw [residualF_low_eval 0] at hcon'
  simp at hcon'

/-- Witness for C2: on the one-element rotor rotorK (-1), whose constant
CL = -1 airfoil makes both bracket-endpoint residuals positive, qprop()
returns the empty partial record with the failure signal at station 0. -/
theorem c2_witness :
    qprop (rotorK (-1)) 3 4 (1/1000000) 100 1 1 0 = (failPerf emptyAcc 1, some 0) := by
  have h := c2_bracket_failure_halts (rotorK (-1)) 3 4 (1/1000000) 100 1 1 0 0
    (by simp [rotorK]) rotorK_fail
    (fun j hj hj0 => absurd hj0 (Nat.not_lt_zero j))
  exact h.1

/-- Claim C4: when no station fails the bracket check, qprop() returns with
no failure signal a record in which, per station, dT/dr = 0.5 rho W^2 Cn c
and dQ/dr = 0.5 rho W^2 Ct c r (with W, Cn, Ct from the station's final
bisection record), the totals are T = B * sum dT/dr * dr and
Q = B * sum dQ/dr * dr, and with n = Omega/(2 pi) the coefficients are
CT = T/(rho n^2 D^4), CP = 2 pi Q/(rho n^2 D^5) and J = Uinf/(n D). -/
theorem c4_aggregation_formulas (rotor : Rotor) (Uinf Omega tol : ℝ)
    (itmax : ℕ) (rho mu a : ℝ)
    (hok : ∀ e ∈ rotor.elements,
      ¬ sameSignAt (qctx rotor Uinf Omega tol itmax rho mu a) e) :
    (qprop rotor Uinf Omega tol itmax rho mu a).2 = none
    ∧ (qprop rotor Uinf Omega tol itmax rho mu a).1.dTdr =
        rotor.elements.map (fun e =>
          0.5 * rho * (elemSolve (qctx rotor Uinf Omega tol itmax rho mu a) e).res.W ^ 2 *
            (elemSolve (qctx rotor Uinf Omega tol itmax rho mu a) e).res.Cn * e.c)
    ∧ (qprop rotor Uinf Omega tol itmax rho mu a).1.dQdr =
        rotor.elements.map (fun e =>
          0.5 * rho * (elemSolve (qctx rotor Uinf Omega tol itmax rho mu a) e).res.W ^ 2 *
            (elemSolve (qctx rotor Uinf Omega tol itmax rho mu a) e).res.Ct * e.c * e.r)
    ∧ (qprop rotor Uinf Omega tol itmax rho mu a).1.W =
        rotor.elements.map (fun e =>
          (elemSolve (qctx rotor Uinf Omega tol itmax rho mu a) e).res.W)
    ∧ (qprop rotor Uinf Omega tol itmax rho mu a).1.T =
        (rotor.B : ℝ) * (rotor.elements.map (fun e =>
          (0.5 * rho * (elemSolve (qctx rotor Uinf Omega tol itmax rho mu a) e).res.W ^ 2 *
            (elemSolve (qctx rotor Uinf Omega tol itmax rho mu a) e).res.Cn * e.c) * e.dr)).sum
    ∧ (qprop rotor Uinf Omega tol itmax rho mu a).1.Q =
        (rotor.B : ℝ) * (rotor.elements.map (fun e =>
          (0.5 * rho * (elemSolve (qctx rotor Uinf Omega tol itmax rho mu a) e).res.W ^ 2 *
            (elemSolve (qctx rotor Uinf Omega tol itmax rho mu a) e).res.Ct * e.c * e.r) * e.dr)).sum
    ∧ (qprop rotor Uinf Omega tol itmax rho mu a).1.CT =
        (qprop rotor Uinf Omega tol itmax rho mu a).1.T /
          (rho * (Omega / (2 * Real.pi)) ^ 2 * rotor.D ^ 4)
    ∧ (qprop rotor Uinf Omega tol itmax rho mu a).1.CP =
        2 * Real.pi * (qprop rotor Uinf Omega tol itmax rho mu a).1.Q /
          (rho * (Omega / (2 * Real.pi)) ^ 2 * rotor.D ^ 5)
    ∧ (qprop rotor Uinf Omega tol itmax rho mu a).1.J =
        Uinf / ((Omega / (2 * Real.pi)) * rotor.D) := by
  have hgo := qpropGo_ok (qctx rotor Uinf Omega tol itmax rho mu a)
    rotor.elements hok 0 emptyAcc
  have hq : qprop rotor Uinf Omega tol itmax rho mu a =
      (donePerf (List.foldl (recordStep (qctx rotor Uinf Omega tol itmax rho mu a))
          emptyAcc rotor.elements) rotor.D rotor.B Uinf Omega rho
        rotor.elements.length, none) := by
    simp only [qprop]
    rw [hgo]
  rw [hq, foldl_record]
  simp only [donePerf, emptyAcc]
  refine ⟨trivial, ?_, ?_, by simp, ?_, ?_, trivial, ?_, trivial⟩
  · simp only [List.nil_append]
    exact List.map_congr (fun e he => by
      simp only [dTdrOf, qctx]
      ring)
  · simp only [List.nil_append]
    exact List.map_congr (fun e he => by
      simp only [dQdrOf, qctx]
      ring)
  · simp only [zero_add]
    rw [show rotor.elements.map (fun e =>
        0.5 * rho * (elemSolve (qctx rotor Uinf Omega tol itmax rho mu a) e).res.W ^ 2 *
          (elemSolve (qctx rotor Uinf Omega tol itmax rho mu a) e).res.Cn * e.c * e.dr) =
        rotor.elements.map (fun e =>
          dTdrOf (qctx rotor Uinf Omega tol itmax rho mu a) e * e.dr) from
      List.map_congr (fun e he => by simp only [dTdrOf, qctx]; ring)]
    ring
  · simp only [zero_add]
    rw [show rotor.elements.map (fun e =>
        0.5 * rho * (elemSolve (qctx rotor Uinf Omega tol itmax rho mu a) e).res.W ^ 2 *
          (elemSolve (qctx rotor Uinf Omega tol itmax rho mu a) e).res.Ct * e.c * e.r * e.dr) =
        rotor.elements.map (fun e =>
          dQdrOf (qctx rotor Uinf Omega tol itmax rho mu a) e * e.dr) from
      List.map_congr (fun e he => by simp only [dQdrOf, qctx]; ring)]
    ring
  · ring

/-- Witness for C4: on the one-element rotor rotorK 0, whose constant CL = 0
airfoil zeroes the bracket-endpoint residual at psi = -pi/2 so that every
station passes the bracket check, qprop() reports no failure and satisfies
the thrust-sum and advance-ratio formulas. -/
theorem c4_witness :
    (qprop (rotorK 0) 3 4 (1/1000000) 100 1 1 0).2 = none
    ∧ (qprop (rotorK 0) 3 4 (1/1000000) 100 1 1 0).1.T =
        (((rotorK 0).B : ℤ) : ℝ) * ((rotorK 0).elements.map (fun e =>
          (0.5 * 1 * (elemSolve (qctx (rotorK 0) 3 4 (1/1000000) 100 1 1 0) e).res.W ^ 2 *
            (elemSolve (qctx (rotorK 0) 3 4 (1/1000000) 100 1 1 0) e).res.Cn * e.c) * e.dr)).sum
    ∧ (qprop (rotorK 0) 3 4 (1/1000000) 100 1 1 0).1.J =
        3 / ((4 / (2 * Real.pi)) * (rotorK 0).D) := by
  have h := c4_aggregation_formulas (rotorK 0) 3 4 (1/1000000) 100 1 1 0 rotorK_ok
  exact ⟨h.1, h.2.2.2.2.1, h.2.2.2.2.2.2.2.2⟩
